import Mathlib

/-!
Verification of the markdown diff-block formatter.

The repository contains two implementations of the same tool:
* an earlier one (here namespace FormatDiff) with a character-based
  backtracking scanner and a changed-line-only rewriter (Policy A);
* a later one (here namespace FormatDiffB) with a line-based state-machine
  scanner and a whole-block baseline rewriter (Policy B).

Documents are modelled as lists of characters; lines as lists of
characters containing no newline.  All definitions are direct
translations of the JavaScript source, with the mutable scan position
made into an explicit argument.
-/

/-- Lines of a character list, in the sense of JavaScript
String.split with separator newline: the empty document has one empty
line, a trailing newline yields a trailing empty line. -/
def splitNl : List Char → List (List Char)
  | [] => [[]]
  | c :: rest =>
    if c = '\n' then [] :: splitNl rest
    else
      match splitNl rest with
      | [] => [[c]]
      | l :: ls => (c :: l) :: ls

/-- Inverse of splitNl: join lines with a newline separator
(JavaScript Array.join). -/
def joinNl : List (List Char) → List Char
  | [] => []
  | [l] => l
  | l :: ls => l ++ '\n' :: joinNl ls

theorem splitNl_ne_nil (c : List Char) : splitNl c ≠ [] := by
  cases c with
  | nil => simp [splitNl]
  | cons a rest =>
    simp only [splitNl]
    split
    · simp
    · split <;> simp

theorem joinNl_splitNl (c : List Char) : joinNl (splitNl c) = c := by
  induction c with
  | nil => rfl
  | cons a rest ih =>
    simp only [splitNl]
    split
    · rename_i h
      subst h
      rcases hs : splitNl rest with _ | ⟨l, ls⟩
      · exact absurd hs (splitNl_ne_nil rest)
      · rw [hs] at ih
        simpa [joinNl] using ih
    · rcases hs : splitNl rest with _ | ⟨l, ls⟩
      · exact absurd hs (splitNl_ne_nil rest)
      · rw [hs] at ih
        cases ls with
        | nil => simpa [joinNl] using ih
        | cons l2 ls2 => simpa [joinNl] using ih

/-- A list with no newline splits into a single line. -/
theorem splitNl_of_no_nl {a : List Char} (h : '\n' ∉ a) : splitNl a = [a] := by
  induction a with
  | nil => rfl
  | cons c rest ih =>
    have hc : ¬ c = '\n' := fun hc => h (hc ▸ List.mem_cons_self c rest)
    have hr : '\n' ∉ rest := fun hr => h (List.mem_cons_of_mem c hr)
    simp only [splitNl, if_neg hc, ih hr]

/-- Splitting distributes over a newline-terminated first line. -/
theorem splitNl_append {a : List Char} (b : List Char) (h : '\n' ∉ a) :
    splitNl (a ++ '\n' :: b) = a :: splitNl b := by
  induction a with
  | nil => simp [splitNl]
  | cons c rest ih =>
    have hc : ¬ c = '\n' := fun hc => h (hc ▸ List.mem_cons_self c rest)
    have hr : '\n' ∉ rest := fun hr => h (List.mem_cons_of_mem c hr)
    simp only [List.cons_append, splitNl, if_neg hc, List.append_eq, ih hr]

/-- Every produced line is newline-free. -/
theorem not_nl_mem_splitNl {c : List Char} {l : List Char} (h : l ∈ splitNl c) :
    '\n' ∉ l := by
  induction c generalizing l with
  | nil =>
    simp only [splitNl, List.mem_singleton] at h
    subst h; simp
  | cons a rest ih =>
    simp only [splitNl] at h
    split at h
    · rcases List.mem_cons.mp h with h1 | h1
      · subst h1; simp
      · exact ih h1
    · rename_i ha
      rcases hs : splitNl rest with _ | ⟨l0, ls⟩
      · exact absurd hs (splitNl_ne_nil rest)
      · rw [hs] at h
        rcases List.mem_cons.mp h with h1 | h1
        · subst h1
          intro hm
          rcases List.mem_cons.mp hm with h2 | h2
          · exact ha h2.symm
          · exact ih (hs ▸ List.mem_cons_self l0 ls) h2
        · exact ih (hs ▸ List.mem_cons_of_mem l0 h1)

/-- Body text built from newline-free lines, each line newline-terminated. -/
def rawLines (bs : List (List Char)) : List Char :=
  (bs.map (fun b => b ++ ['\n'])).flatten

theorem rawLines_nil : rawLines [] = [] := rfl

theorem rawLines_cons (b : List Char) (bs : List (List Char)) :
    rawLines (b :: bs) = b ++ '\n' :: rawLines bs := by
  simp [rawLines]

theorem splitNl_rawLines_append {bs : List (List Char)} (rest : List Char)
    (h : ∀ b ∈ bs, '\n' ∉ b) :
    splitNl (rawLines bs ++ rest) = bs ++ splitNl rest := by
  induction bs with
  | nil => simp [rawLines]
  | cons b bs ih =>
    rw [rawLines_cons]
    have hb : '\n' ∉ b := h b (List.mem_cons_self b bs)
    have hbs : ∀ x ∈ bs, '\n' ∉ x := fun x hx => h x (List.mem_cons_of_mem b hx)
    rw [List.append_assoc, List.cons_append, splitNl_append _ hb, ih hbs]
    rfl

theorem joinNl_append_lines (bs : List (List Char)) (l : List Char)
    (ls : List (List Char)) :
    joinNl (bs ++ l :: ls) = rawLines bs ++ joinNl (l :: ls) := by
  induction bs with
  | nil => simp [rawLines]
  | cons b bs ih =>
    rw [rawLines_cons]
    cases bs with
    | nil => simp [joinNl, rawLines]
    | cons b2 bs2 => simpa [joinNl] using ih

namespace FormatDiff

/-! The first implementation: character-based backtracking scanner
(class DiffBlockParser) plus the changed-line-only rewriter.  The
parser state (this.pos) is an explicit argument; this.content is the
document. -/

/-- Length of the run of space characters at the head of a list
(consumeSpaces counts characters equal to a space). -/
def spacesRun (l : List Char) : Nat := (l.takeWhile (fun c => c = ' ')).length

/-- peekN: the next n characters from position pos. -/
def peekN (content : List Char) (pos n : Nat) : List Char :=
  (content.drop pos).take n

/-- Number of characters skipToNewline consumes from the head of a list:
everything up to and including the first newline, or the whole list. -/
def skipNlAux : List Char → Nat
  | [] => 0
  | c :: rest => if c = '\n' then 1 else 1 + skipNlAux rest

/-- skipToNewline: the position after the next newline (or end of input). -/
def skipToNewline (content : List Char) (pos : Nat) : Nat :=
  pos + skipNlAux (content.drop pos)

/-- parseDiffBlockStart: consume spaces, then the literal three backticks
followed by the word diff, then skip to the end of the line.  Returns the
indent level and the new position on success; on failure the caller keeps
its old position. -/
def parseDiffBlockStart (content : List Char) (pos : Nat) : Option (Nat × Nat) :=
  let indentLevel := spacesRun (content.drop pos)
  if peekN content (pos + indentLevel) 7 = "```diff".data then
    some (indentLevel, skipToNewline content (pos + indentLevel + 7))
  else none

/-- parseDiffBlockEnd: consume spaces, then three backticks, then require
a newline or end of input.  Returns the new position on success. -/
def parseDiffBlockEnd (content : List Char) (pos : Nat) : Option Nat :=
  let s := spacesRun (content.drop pos)
  if peekN content (pos + s) 3 = "```".data then
    let q := pos + s + 3
    if q ≥ content.length then some q
    else if content[q]? = some '\n' then some (q + 1)
    else none
  else none

theorem skipNlAux_pos {l : List Char} (h : l ≠ []) : 1 ≤ skipNlAux l := by
  cases l with
  | nil => exact absurd rfl h
  | cons c rest => simp only [skipNlAux]; split <;> omega

theorem skipToNewline_lt {content : List Char} {pos : Nat}
    (h : pos < content.length) : pos < skipToNewline content pos := by
  have : content.drop pos ≠ [] := by
    intro hd
    have := List.drop_eq_nil_iff.mp hd
    omega
  have := skipNlAux_pos this
  simp only [skipToNewline]
  omega

theorem parseDiffBlockEnd_gt {content : List Char} {pos e : Nat}
    (h : parseDiffBlockEnd content pos = some e) : pos < e := by
  simp only [parseDiffBlockEnd] at h
  split at h
  · split at h
    · simp only [Option.some.injEq] at h; omega
    · split at h
      · simp only [Option.some.injEq] at h; omega
      · exact absurd h (by simp)
  · exact absurd h (by simp)

/-- The inner loop of parse: starting at pos, look for a block end on the
current line; if the line is not a block end, skip to the next line.
Returns the position just after a successful block end, or none at end of
input. -/
def findEnd (content : List Char) (pos : Nat) : Option Nat :=
  if h : pos < content.length then
    match parseDiffBlockEnd content pos with
    | some e => some e
    | none => findEnd content (skipToNewline content pos)
  else none
  termination_by content.length - pos
  decreasing_by
    have := skipToNewline_lt h
    omega

theorem findEnd_gt {content : List Char} {pos e : Nat}
    (h : findEnd content pos = some e) : pos < e := by
  have H : ∀ n pos e, content.length - pos ≤ n →
      findEnd content pos = some e → pos < e := by
    intro n
    induction n with
    | zero =>
      intro pos e hle h
      rw [findEnd] at h
      split at h
      · omega
      · exact absurd h (by simp)
    | succ n ih =>
      intro pos e hle h
      rw [findEnd] at h
      split at h
      · rename_i hlt
        rcases he : parseDiffBlockEnd content pos with _ | e'
        · rw [he] at h
          have hskip := skipToNewline_lt hlt
          have := ih (skipToNewline content pos) e (by omega) h
          omega
        · rw [he] at h
          simp only [Option.some.injEq] at h
          subst h
          exact parseDiffBlockEnd_gt he
      · exact absurd h (by simp)
  exact H (content.length - pos) pos e (le_refl _) h

/-- A detected diff block, with all positions absolute offsets into the
document (fields as in the JavaScript object pushed by parse). -/
structure Block where
  fullStartPos : Nat
  fullEndPos : Nat
  contentStartPos : Nat
  contentEndPos : Nat
  indentLevel : Nat
deriving DecidableEq, Repr

/-- First adjustment loop after a block end is found: walk the end
position back over space characters, never moving below start. -/
def backSpaces (content : List Char) (start : Nat) : Nat → Nat
  | 0 => 0
  | e + 1 =>
    if start < e + 1 ∧ content[e]? = some ' ' then backSpaces content start e
    else e + 1

/-- Second adjustment loop: walk back until the previous character is a
newline, never moving below start. -/
def backToNl (content : List Char) (start : Nat) : Nat → Nat
  | 0 => 0
  | e + 1 =>
    if start < e + 1 ∧ content[e]? ≠ some '\n' then backToNl content start e
    else e + 1

/-- The parse loop of DiffBlockParser: at each position try to open a
block; on success hunt for the block end line by line and record the
block, then continue after it; on failure advance one character. -/
def parse (content : List Char) (pos : Nat) : List Block :=
  if h : pos < content.length then
    match hs : parseDiffBlockStart content pos with
    | some (indentLevel, afterStart) =>
      match he : findEnd content afterStart with
      | some endPos =>
        let contentEndPos :=
          endPos - (if content[endPos - 1]? = some '\n' then 4 else 3)
        let adjusted := backToNl content afterStart
          (backSpaces content afterStart contentEndPos)
        { fullStartPos := pos, fullEndPos := endPos,
          contentStartPos := afterStart, contentEndPos := adjusted,
          indentLevel := indentLevel } :: parse content endPos
      | none => []
    | none => parse content (pos + 1)
  else []
  termination_by content.length - pos
  decreasing_by
    · have h1 := findEnd_gt he
      have h2 : pos < afterStart := by
        simp only [parseDiffBlockStart] at hs
        split at hs
        · simp only [Option.some.injEq, Prod.mk.injEq] at hs
          have : pos + spacesRun (content.drop pos) + 7 ≤
              skipToNewline content (pos + spacesRun (content.drop pos) + 7) := by
            simp [skipToNewline]
          omega
        · exact absurd hs (by simp)
      omega
    · omega

/-- The helper loop inside the changed-line branch of formatDiffBlock:
remove up to n leading spaces. -/
def dropSpacesUpTo : Nat → List Char → List Char
  | 0, rest => rest
  | _ + 1, [] => []
  | n + 1, c :: rest => if c = ' ' then dropSpacesUpTo n rest else c :: rest

/-- The per-line rewrite of formatDiffBlock: a line starting with a minus
or plus marker gets indentLevel spaces prepended and up to indentLevel
spaces after the marker removed; every other line is returned as is. -/
def formatLine (indentLevel : Nat) (line : List Char) : List Char :=
  match line with
  | c :: rest =>
    if c = '-' ∨ c = '+' then
      List.replicate indentLevel ' ' ++ c :: dropSpacesUpTo indentLevel rest
    else line
  | [] => []

/-- formatDiffBlock: split the block body into lines, rewrite each line,
join back. -/
def formatDiffBlock (content : List Char) (indentLevel : Nat) : List Char :=
  joinNl ((splitNl content).map (formatLine indentLevel))

/-- One splice step of formatMarkdown: replace the body span of one block
in the working result, the original body being read from the untouched
input document. -/
def spliceBlock (markdown result : List Char) (b : Block) : List Char :=
  result.take b.contentStartPos
    ++ formatDiffBlock
        ((markdown.drop b.contentStartPos).take (b.contentEndPos - b.contentStartPos))
        b.indentLevel
    ++ result.drop b.contentEndPos

/-- formatMarkdown: parse the document and splice every block body,
working from the last block back to the first. -/
def formatMarkdown (markdown : List Char) : List Char :=
  let blocks := parse markdown 0
  if blocks.length = 0 then markdown
  else blocks.foldr (fun b result => spliceBlock markdown result b) markdown

end FormatDiff

namespace FormatDiffB

/-! The second implementation: line-based finite-state scanner
(findDiffBlocks) and the whole-block baseline rewriter. -/

/-- The character class of the JavaScript regular-expression token for
whitespace (also the set removed by String.trim). -/
def isJsWhitespace (c : Char) : Bool :=
  c = ' ' || c = '\t' || c = '\n' || c = '\x0B' || c = '\x0C' || c = '\r' ||
  c = '\u00A0' || c = '\u1680' || ('\u2000' ≤ c && c ≤ '\u200A') ||
  c = '\u2028' || c = '\u2029' || c = '\u202F' || c = '\u205F' ||
  c = '\u3000' || c = '\uFEFF'

/-- The opening-fence test of findDiffBlocks: the whole line must be
optional whitespace followed exactly by three backticks and the word
diff; returns the captured whitespace length (the indent level). -/
def matchOpen (line : List Char) : Option Nat :=
  let w := line.takeWhile isJsWhitespace
  if line.drop w.length = "```diff".data then some w.length else none

/-- The closing-fence test of findDiffBlocks: optional whitespace
followed exactly by three backticks, end of line. -/
def matchClose (line : List Char) : Bool :=
  line.dropWhile isJsWhitespace = "```".data

/-- A block found by the line scanner (startLine and endLine are line
indices; lines holds every line of the block, fences included). -/
structure DiffBlock where
  startLine : Nat
  endLine : Nat
  indentLevel : Nat
  lines : List (List Char)
deriving DecidableEq, Repr

/-- The state machine of findDiffBlocks over the line list.  The third
argument is the state: none is OUTSIDE, some (startLine, indentLevel,
accumulated lines) is IN_DIFF_BLOCK.  An unterminated current block is
discarded at end of input. -/
def findAux : List (List Char) → Nat → Option (Nat × Nat × List (List Char)) →
    List DiffBlock
  | [], _, _ => []
  | line :: rest, i, none =>
    match matchOpen line with
    | some indentLevel => findAux rest (i + 1) (some (i, indentLevel, [line]))
    | none => findAux rest (i + 1) none
  | line :: rest, i, some (startLine, indentLevel, acc) =>
    let acc2 := acc ++ [line]
    if matchClose line then
      { startLine := startLine, endLine := i, indentLevel := indentLevel,
        lines := acc2 } :: findAux rest (i + 1) none
    else findAux rest (i + 1) (some (startLine, indentLevel, acc2))

/-- findDiffBlocks: run the state machine over the document lines. -/
def findDiffBlocks (markdown : List Char) : List DiffBlock :=
  findAux (splitNl markdown) 0 none

/-- JavaScript String.trim. -/
def jsTrim (l : List Char) : List Char :=
  ((l.dropWhile isJsWhitespace).reverse.dropWhile isJsWhitespace).reverse

/-- isDiffHeader: after trimming, the line starts with one of the
unified-diff metadata markers. -/
def isDiffHeader (line : List Char) : Bool :=
  let trimmed := jsTrim line
  "diff ".data.isPrefixOf trimmed || "---".data.isPrefixOf trimmed ||
  "+++".data.isPrefixOf trimmed || "@@".data.isPrefixOf trimmed ||
  "index ".data.isPrefixOf trimmed

/-- Length of the leading-whitespace run of a line (the match of the
leading-whitespace capture group). -/
def wsRunLen (l : List Char) : Nat := (l.takeWhile isJsWhitespace).length

/-- One step of the minimum-indent fold of calculateMinCodeIndent: blank
lines and diff headers are skipped; none plays the role of Infinity. -/
def minStep (acc : Option Nat) (l : List Char) : Option Nat :=
  if (jsTrim l).length = 0 then acc
  else if isDiffHeader l then acc
  else
    match acc with
    | none => some (wsRunLen l)
    | some m => some (min m (wsRunLen l))

/-- calculateMinCodeIndent: minimum leading-whitespace length over the
body lines (all lines except the first and last), skipping blank lines
and diff headers; 0 when no line counts. -/
def calculateMinCodeIndent (blockLines : List (List Char)) : Nat :=
  let body := (blockLines.drop 1).take (blockLines.length - 2)
  match body.foldl minStep none with
  | none => 0
  | some m => m

/-- formatDiffBlock: keep the fence lines, prepend
max(blockIndent - minCodeIndent, 0) spaces to every non-blank body line.
Natural-number subtraction is exactly the max with zero of the source. -/
def formatDiffBlock (blockLines : List (List Char)) (blockIndent : Nat) :
    List (List Char) :=
  let minCodeIndent := calculateMinCodeIndent blockLines
  let spacesToAdd := blockIndent - minCodeIndent
  let pfx := List.replicate spacesToAdd ' '
  let body := (blockLines.drop 1).take (blockLines.length - 2)
  blockLines.getD 0 []
    :: (body.map fun line => if (jsTrim line).length = 0 then line else pfx ++ line)
    ++ [blockLines.getD (blockLines.length - 1) []]

/-- The output-assembly loop of formatMarkdown: copy the lines before
each block, emit the formatted block, continue after its end line. -/
def assembleAux (lines : List (List Char)) : Nat → List DiffBlock →
    List (List Char)
  | currentLine, [] => lines.drop currentLine
  | currentLine, b :: bs =>
    ((lines.drop currentLine).take (b.startLine - currentLine))
      ++ formatDiffBlock b.lines b.indentLevel
      ++ assembleAux lines (b.endLine + 1) bs

/-- formatMarkdown of the second implementation. -/
def formatMarkdown (markdown : List Char) : List Char :=
  let lines := splitNl markdown
  let blocks := findDiffBlocks markdown
  if blocks.length = 0 then markdown
  else joinNl (assembleAux lines 0 blocks)

end FormatDiffB

namespace FormatDiffB

/-! Structural lemmas about the second implementation. -/

/-- The minimum-indent fold over a bare body-line list. -/
def minFold (body : List (List Char)) : Option Nat := body.foldl minStep none

theorem calculateMinCodeIndent_surgery (o cl : List Char) (body : List (List Char)) :
    calculateMinCodeIndent (o :: body ++ [cl]) =
      match minFold body with
      | none => 0
      | some m => m := by
  have hlen : (o :: body ++ [cl]).length = body.length + 2 := by simp
  have hbody : ((o :: body ++ [cl]).drop 1).take ((o :: body ++ [cl]).length - 2)
      = body := by
    simp only [hlen, List.drop_succ_cons, List.drop_zero, Nat.add_sub_cancel]
    exact List.take_left body [cl]
  simp only [calculateMinCodeIndent, hbody, minFold]

theorem formatDiffBlock_surgery (o cl : List Char) (body : List (List Char))
    (i : Nat) :
    formatDiffBlock (o :: body ++ [cl]) i =
      o :: (body.map fun line =>
          if (jsTrim line).length = 0 then line
          else List.replicate (i - calculateMinCodeIndent (o :: body ++ [cl])) ' ' ++ line)
        ++ [cl] := by
  have hlen : (o :: body ++ [cl]).length = body.length + 2 := by simp
  have hbody : ((o :: body ++ [cl]).drop 1).take ((o :: body ++ [cl]).length - 2)
      = body := by
    simp only [hlen, List.drop_succ_cons, List.drop_zero, Nat.add_sub_cancel]
    exact List.take_left body [cl]
  have hfirst : (o :: body ++ [cl]).getD 0 [] = o := rfl
  have hlast : (o :: body ++ [cl]).getD ((o :: body ++ [cl]).length - 1) [] = cl := by
    have h4 : (o :: body ++ [cl]).length - 1 = (o :: body).length := by
      simp [hlen]
    have h2 : o :: body ++ [cl] = (o :: body) ++ [cl] := rfl
    rw [List.getD, h4, List.get?_eq_getElem?, h2, List.getElem?_concat_length]
    rfl
  simp only [formatDiffBlock, hbody, hfirst, hlast]

theorem minStep_skip {acc : Option Nat} {l : List Char}
    (h : (jsTrim l).length = 0 ∨ isDiffHeader l = true) : minStep acc l = acc := by
  rcases h with h | h
  · simp [minStep, h]
  · by_cases hb : (jsTrim l).length = 0
    · simp [minStep, hb]
    · simp [minStep, hb, h]

theorem minFold_append (b1 b2 : List (List Char)) (acc : Option Nat) :
    (b1 ++ b2).foldl minStep acc = b2.foldl minStep (b1.foldl minStep acc) :=
  List.foldl_append minStep acc b1 b2

theorem minFold_insert_skip (b1 b2 : List (List Char)) {h : List Char}
    (hh : (jsTrim h).length = 0 ∨ isDiffHeader h = true) :
    minFold (b1 ++ h :: b2) = minFold (b1 ++ b2) := by
  simp only [minFold, minFold_append, List.foldl_cons, minStep_skip hh]

theorem minStep_isSome {acc : Option Nat} {l : List Char} (h : acc.isSome) :
    (minStep acc l).isSome := by
  rcases acc with _ | m
  · simp at h
  · simp only [minStep]
    split
    · simp
    · split
      · simp
      · simp

theorem minFold_isSome_of_mem {body : List (List Char)} {l : List Char}
    (hl : l ∈ body) (hb : ¬ (jsTrim l).length = 0) (hh : isDiffHeader l = false) :
    (minFold body).isSome := by
  have step : ∀ (b2 : List (List Char)) (acc : Option Nat), acc.isSome →
      (b2.foldl minStep acc).isSome := by
    intro b2
    induction b2 with
    | nil => intro acc h; simpa using h
    | cons x xs ih => intro acc h; exact ih _ (minStep_isSome h)
  rcases List.append_of_mem hl with ⟨b1, b2, rfl⟩
  simp only [minFold, minFold_append, List.foldl_cons]
  apply step
  have : minStep (b1.foldl minStep none) l ≠ none := by
    simp only [minStep, hb, if_false, hh]
    rcases b1.foldl minStep none with _ | m <;> simp
  rcases hacc : minStep (b1.foldl minStep none) l with _ | m
  · exact absurd hacc this
  · simp

theorem isJsWhitespace_space : isJsWhitespace ' ' = true := by decide

theorem dropWhile_ws_replicate (p : Nat) (l : List Char) :
    (List.replicate p ' ' ++ l).dropWhile isJsWhitespace = l.dropWhile isJsWhitespace := by
  induction p with
  | zero => rfl
  | succ n ih =>
    simp only [List.replicate_succ, List.cons_append, List.dropWhile_cons,
      isJsWhitespace_space, if_true, ih]

theorem takeWhile_ws_replicate (p : Nat) (l : List Char) :
    (List.replicate p ' ' ++ l).takeWhile isJsWhitespace
      = List.replicate p ' ' ++ l.takeWhile isJsWhitespace := by
  induction p with
  | zero => rfl
  | succ n ih =>
    simp only [List.replicate_succ, List.cons_append, List.takeWhile_cons,
      isJsWhitespace_space, if_true, ih]

theorem jsTrim_replicate (p : Nat) (l : List Char) :
    jsTrim (List.replicate p ' ' ++ l) = jsTrim l := by
  simp only [jsTrim, dropWhile_ws_replicate]

theorem isDiffHeader_replicate (p : Nat) (l : List Char) :
    isDiffHeader (List.replicate p ' ' ++ l) = isDiffHeader l := by
  simp only [isDiffHeader, jsTrim_replicate]

theorem wsRunLen_replicate (p : Nat) (l : List Char) :
    wsRunLen (List.replicate p ' ' ++ l) = p + wsRunLen l := by
  simp [wsRunLen, takeWhile_ws_replicate]

theorem matchClose_replicate (p : Nat) (l : List Char) :
    matchClose (List.replicate p ' ' ++ l) = matchClose l := by
  simp only [matchClose, dropWhile_ws_replicate]

/-- The body-line rewrite of the whole-block formatter, named for reuse
in lemma statements. -/
def padLine (p : Nat) (line : List Char) : List Char :=
  if (jsTrim line).length = 0 then line else List.replicate p ' ' ++ line

theorem padLine_zero (l : List Char) : padLine 0 l = l := by
  simp [padLine]

theorem jsTrim_padLine (p : Nat) (l : List Char) :
    jsTrim (padLine p l) = jsTrim l := by
  unfold padLine
  split
  · rfl
  · exact jsTrim_replicate p l

theorem matchClose_padLine (p : Nat) (l : List Char) :
    matchClose (padLine p l) = matchClose l := by
  unfold padLine
  split
  · rfl
  · exact matchClose_replicate p l

theorem minStep_padLine (p : Nat) (acc : Option Nat) (l : List Char) :
    minStep (acc.map (· + p)) (padLine p l) = (minStep acc l).map (· + p) := by
  by_cases hb : (jsTrim l).length = 0
  · simp [padLine, minStep, hb]
  · have hpad : padLine p l = List.replicate p ' ' ++ l := by simp [padLine, hb]
    rw [hpad]
    by_cases hh : isDiffHeader l = true
    · simp [minStep, hb, hh, jsTrim_replicate, isDiffHeader_replicate]
    · simp only [Bool.not_eq_true] at hh
      rcases acc with _ | m
      · simp [minStep, hb, hh, jsTrim_replicate, isDiffHeader_replicate,
          wsRunLen_replicate, Nat.add_comm]
      · simp only [minStep, hb, hh, jsTrim_replicate, isDiffHeader_replicate,
          wsRunLen_replicate, if_false, Option.map_some]
        simp only [Bool.false_eq_true, if_false, Option.map_some', Option.some.injEq]
        omega

theorem minFold_map_padLine (p : Nat) (body : List (List Char)) :
    minFold (body.map (padLine p)) = (minFold body).map (· + p) := by
  have H : ∀ (b : List (List Char)) (acc : Option Nat),
      (b.map (padLine p)).foldl minStep (acc.map (· + p))
        = (b.foldl minStep acc).map (· + p) := by
    intro b
    induction b with
    | nil => intro acc; rfl
    | cons x xs ih =>
      intro acc
      simp only [List.map_cons, List.foldl_cons, minStep_padLine, ih]
  simpa [minFold] using H body none

theorem findAux_skip {pre : List (List Char)} (rest : List (List Char)) (i : Nat)
    (h : ∀ l ∈ pre, matchOpen l = none) :
    findAux (pre ++ rest) i none = findAux rest (i + pre.length) none := by
  induction pre generalizing i with
  | nil => simp
  | cons l pre ih =>
    have hl : matchOpen l = none := h l (List.mem_cons_self l pre)
    have hp : ∀ x ∈ pre, matchOpen x = none := fun x hx => h x (List.mem_cons_of_mem l hx)
    simp only [List.cons_append, findAux, hl, List.append_eq]
    rw [ih (i + 1) hp]
    congr 1
    simp
    omega

theorem findAux_bodyStep {body : List (List Char)} (rest : List (List Char))
    (i s0 ind : Nat) (acc : List (List Char))
    (h : ∀ l ∈ body, matchClose l = false) :
    findAux (body ++ rest) i (some (s0, ind, acc))
      = findAux rest (i + body.length) (some (s0, ind, acc ++ body)) := by
  induction body generalizing i acc with
  | nil => simp
  | cons b body ih =>
    have hb : matchClose b = false := h b (List.mem_cons_self b body)
    have hp : ∀ x ∈ body, matchClose x = false :=
      fun x hx => h x (List.mem_cons_of_mem b hx)
    simp only [List.cons_append, findAux, hb, Bool.false_eq_true, if_false,
      List.append_eq]
    rw [ih (i + 1) (acc ++ [b]) hp]
    have h1 : i + 1 + body.length = i + (b :: body).length := by simp; omega
    have h2 : acc ++ [b] ++ body = acc ++ b :: body := by simp
    rw [h1, h2]

theorem findAux_block (pre : List (List Char)) (op : List Char)
    (body : List (List Char)) (cl : List Char) (rest : List (List Char))
    (i ind : Nat)
    (hpre : ∀ l ∈ pre, matchOpen l = none)
    (hop : matchOpen op = some ind)
    (hbody : ∀ l ∈ body, matchClose l = false)
    (hcl : matchClose cl = true) :
    findAux (pre ++ op :: body ++ cl :: rest) i none
      = { startLine := i + pre.length,
          endLine := i + pre.length + body.length + 1,
          indentLevel := ind,
          lines := op :: body ++ [cl] }
        :: findAux rest (i + pre.length + body.length + 2) none := by
  have hassoc : pre ++ op :: body ++ cl :: rest
      = pre ++ (op :: (body ++ cl :: rest)) := by simp
  rw [hassoc, findAux_skip (op :: (body ++ cl :: rest)) i hpre]
  simp only [findAux, hop]
  rw [findAux_bodyStep (cl :: rest) (i + pre.length + 1) (i + pre.length) ind [op] hbody]
  simp only [findAux, hcl, if_true]
  have e1 : i + pre.length + 1 + body.length = i + pre.length + body.length + 1 := by
    omega
  have e2 : i + pre.length + body.length + 1 + 1 = i + pre.length + body.length + 2 := by
    omega
  have e3 : [op] ++ body ++ [cl] = op :: body ++ [cl] := by simp
  rw [e1, e2, e3]

theorem findAux_noclose {ls : List (List Char)}
    (h : ∀ l ∈ ls, matchClose l = false) :
    ∀ (i : Nat) st, findAux ls i (some st) = [] := by
  induction ls with
  | nil => intro i st; rfl
  | cons l ls ih =>
    intro i st
    obtain ⟨s0, ind, acc⟩ := st
    have hl : matchClose l = false := h l (List.mem_cons_self l ls)
    have hp : ∀ x ∈ ls, matchClose x = false :=
      fun x hx => h x (List.mem_cons_of_mem l hx)
    simp only [findAux, hl, Bool.false_eq_true, if_false]
    exact ih hp (i + 1) _

theorem findAux_emitted_closed :
    ∀ (ls : List (List Char)) (i : Nat) st blk, blk ∈ findAux ls i st →
      ∃ last, blk.lines.getLast? = some last ∧ matchClose last = true := by
  intro ls
  induction ls with
  | nil => intro i st blk h; simp [findAux] at h
  | cons l ls ih =>
    intro i st blk h
    rcases st with _ | ⟨s0, ind, acc⟩
    · simp only [findAux] at h
      rcases hm : matchOpen l with _ | ind
      · rw [hm] at h; exact ih _ _ _ h
      · rw [hm] at h; exact ih _ _ _ h
    · simp only [findAux] at h
      by_cases hc : matchClose l = true
      · rw [if_pos hc] at h
        rcases List.mem_cons.mp h with h1 | h1
        · refine ⟨l, ?_, hc⟩
          rw [h1]
          simp [List.getLast?_append]
        · exact ih _ _ _ h1
      · rw [if_neg hc] at h
        exact ih _ _ _ h

theorem split_first_close (ls : List (List Char)) :
    (∀ l ∈ ls, matchClose l = false) ∨
    ∃ body cl rest, ls = body ++ cl :: rest ∧
      (∀ l ∈ body, matchClose l = false) ∧ matchClose cl = true := by
  induction ls with
  | nil => left; intro l h; simp at h
  | cons x ls ih =>
    by_cases hx : matchClose x = true
    · right; exact ⟨[], x, ls, by simp, by simp, hx⟩
    · have hx' : matchClose x = false := by
        simpa [Bool.not_eq_true] using hx
      rcases ih with h | ⟨body, cl, rest, rfl, hb, hc⟩
      · left
        intro l hl
        rcases List.mem_cons.mp hl with h1 | h1
        · subst h1; exact hx'
        · exact h l h1
      · right
        refine ⟨x :: body, cl, rest, by simp, ?_, hc⟩
        intro l hl
        rcases List.mem_cons.mp hl with h1 | h1
        · subst h1; exact hx'
        · exact hb l h1

theorem findAux_cases (ls : List (List Char)) :
    (∀ i : Nat, findAux ls i none = []) ∨
    ∃ pre op ind body cl rest, ls = pre ++ op :: body ++ cl :: rest ∧
      (∀ l ∈ pre, matchOpen l = none) ∧ matchOpen op = some ind ∧
      (∀ l ∈ body, matchClose l = false) ∧ matchClose cl = true := by
  induction ls with
  | nil => left; intro i; rfl
  | cons l ls ih =>
    rcases hm : matchOpen l with _ | ind
    · rcases ih with h | ⟨pre, op, ind, body, cl, rest, rfl, hpre, hop, hbody, hcl⟩
      · left
        intro i
        simp only [findAux, hm]
        exact h (i + 1)
      · right
        refine ⟨l :: pre, op, ind, body, cl, rest, by simp, ?_, hop, hbody, hcl⟩
        intro x hx
        rcases List.mem_cons.mp hx with h1 | h1
        · subst h1; exact hm
        · exact hpre x h1
    · rcases split_first_close ls with h | ⟨body, cl, rest, rfl, hb, hc⟩
      · left
        intro i
        simp only [findAux, hm]
        exact findAux_noclose h (i + 1) _
      · right
        exact ⟨[], l, ind, body, cl, rest, by simp, by simp, hm, hb, hc⟩

/-- Shift the line indices of a block (relating a scan of a suffix to the
scan of the whole line list). -/
def bShift (k : Nat) (b : DiffBlock) : DiffBlock :=
  { b with startLine := k + b.startLine, endLine := k + b.endLine }

/-- Shift the state of the scanner. -/
def stShift (k : Nat) : Option (Nat × Nat × List (List Char)) →
    Option (Nat × Nat × List (List Char))
  | none => none
  | some (s0, ind, acc) => some (k + s0, ind, acc)

theorem findAux_shift (ls : List (List Char)) :
    ∀ (i k : Nat) st, findAux ls (k + i) (stShift k st)
      = (findAux ls i st).map (bShift k) := by
  induction ls with
  | nil => intro i k st; cases st <;> rfl
  | cons l ls ih =>
    intro i k st
    rcases st with _ | ⟨s0, ind, acc⟩
    · simp only [stShift, findAux]
      rcases hm : matchOpen l with _ | ind
      · have := ih (i + 1) k none
        simpa [stShift, Nat.add_assoc] using this
      · have := ih (i + 1) k (some (i, ind, [l]))
        simpa [stShift, Nat.add_assoc] using this
    · simp only [stShift, findAux]
      by_cases hc : matchClose l = true
      · simp only [hc, if_true, List.map_cons]
        have := ih (i + 1) k none
        simp only [stShift] at this
        rw [show k + i + 1 = k + (i + 1) from by omega, this]
        rfl
      · simp only [hc, Bool.false_eq_true, if_false]
        have := ih (i + 1) k (some (s0, ind, acc ++ [l]))
        simp only [stShift] at this
        rw [show k + i + 1 = k + (i + 1) from by omega]
        exact this

theorem drop_drop_add {A : Type} (l : List A) (a b : Nat) :
    l.drop (a + b) = (l.drop a).drop b := by
  rw [List.drop_drop]

theorem assembleAux_shift (bs : List DiffBlock) :
    ∀ (full rest : List (List Char)) (k cur : Nat), full.drop k = rest →
      assembleAux full (k + cur) (bs.map (bShift k)) = assembleAux rest cur bs := by
  induction bs with
  | nil =>
    intro full rest k cur h
    simp only [List.map_nil, assembleAux]
    rw [drop_drop_add, h]
  | cons b bs ih =>
    intro full rest k cur h
    simp only [List.map_cons, assembleAux, bShift]
    have h1 : full.drop (k + cur) = rest.drop cur := by
      rw [drop_drop_add, h]
    have h2 : k + b.startLine - (k + cur) = b.startLine - cur := by omega
    have h3 : k + b.endLine + 1 = k + (b.endLine + 1) := by omega
    rw [h1, h2, h3, ih full rest k (b.endLine + 1) h]

/-- The whole pipeline at the level of line lists: scan, then assemble. -/
def lineFormat (ls : List (List Char)) : List (List Char) :=
  assembleAux ls 0 (findAux ls 0 none)

theorem formatMarkdown_eq_lineFormat (markdown : List Char) :
    formatMarkdown markdown = joinNl (lineFormat (splitNl markdown)) := by
  simp only [formatMarkdown, findDiffBlocks]
  by_cases h : (findAux (splitNl markdown) 0 none).length = 0
  · have hb : findAux (splitNl markdown) 0 none = [] := List.length_eq_zero.mp h
    rw [if_pos h]
    simp only [lineFormat, hb, assembleAux, List.drop_zero]
    exact (joinNl_splitNl markdown).symm
  · rw [if_neg h]
    rfl

theorem lineFormat_noblocks {ls : List (List Char)}
    (h : findAux ls 0 none = []) : lineFormat ls = ls := by
  simp [lineFormat, h, assembleAux]

theorem lineFormat_block (pre : List (List Char)) (op : List Char)
    (body : List (List Char)) (cl : List Char) (rest : List (List Char))
    (ind : Nat)
    (hpre : ∀ l ∈ pre, matchOpen l = none)
    (hop : matchOpen op = some ind)
    (hbody : ∀ l ∈ body, matchClose l = false)
    (hcl : matchClose cl = true) :
    lineFormat (pre ++ op :: body ++ cl :: rest)
      = pre ++ formatDiffBlock (op :: body ++ [cl]) ind ++ lineFormat rest := by
  unfold lineFormat
  rw [findAux_block pre op body cl rest 0 ind hpre hop hbody hcl]
  simp only [Nat.zero_add, assembleAux, List.drop_zero, Nat.sub_zero]
  have htake : (pre ++ op :: body ++ cl :: rest).take pre.length = pre := by
    have : pre ++ op :: body ++ cl :: rest = pre ++ (op :: body ++ cl :: rest) := by
      simp
    rw [this, List.take_left]
  have hdropK : (pre ++ op :: body ++ cl :: rest).drop
      (pre.length + body.length + 2) = rest := by
    have h1 : pre ++ op :: body ++ cl :: rest
        = (pre ++ op :: body ++ [cl]) ++ rest := by simp
    have h2 : (pre ++ op :: body ++ [cl]).length
        = pre.length + body.length + 2 := by simp; omega
    rw [h1, ← h2, List.drop_left]
  have hfind : findAux rest (pre.length + body.length + 2) none
      = (findAux rest 0 none).map (bShift (pre.length + body.length + 2)) := by
    have := findAux_shift rest 0 (pre.length + body.length + 2) none
    simpa [stShift] using this
  have hassem : assembleAux (pre ++ op :: body ++ cl :: rest)
      (pre.length + body.length + 1 + 1)
      ((findAux rest 0 none).map (bShift (pre.length + body.length + 2)))
      = assembleAux rest 0 (findAux rest 0 none) := by
    have := assembleAux_shift (findAux rest 0 none)
      (pre ++ op :: body ++ cl :: rest) rest (pre.length + body.length + 2) 0 hdropK
    simpa using this
  rw [htake, show pre.length + body.length + 1 + 1 = pre.length + body.length + 2
    from by omega, hfind, hassem]

theorem body_extract (o cl : List Char) (body : List (List Char)) :
    ((o :: body ++ [cl]).drop 1).take ((o :: body ++ [cl]).length - 2) = body := by
  have hlen : (o :: body ++ [cl]).length = body.length + 2 := by simp
  simp only [hlen, List.drop_succ_cons, List.drop_zero, Nat.add_sub_cancel]
  exact List.take_left body [cl]

theorem formatDiffBlock_padLine (op cl : List Char) (body : List (List Char))
    (ind : Nat) :
    formatDiffBlock (op :: body ++ [cl]) ind
      = op :: body.map
          (padLine (ind - calculateMinCodeIndent (op :: body ++ [cl]))) ++ [cl] := by
  rw [formatDiffBlock_surgery]
  rfl

theorem map_padLine_zero (xs : List (List Char)) : xs.map (padLine 0) = xs := by
  induction xs with
  | nil => rfl
  | cons x xs ih => simp [padLine_zero, ih]

theorem fmtB_repad (op cl : List Char) (body : List (List Char)) (ind : Nat)
    (hsome : (minFold body).isSome) :
    formatDiffBlock
        (op :: body.map (padLine (ind - calculateMinCodeIndent (op :: body ++ [cl])))
          ++ [cl]) ind
      = op :: body.map (padLine (ind - calculateMinCodeIndent (op :: body ++ [cl])))
          ++ [cl] := by
  obtain ⟨m, hm⟩ := Option.isSome_iff_exists.mp hsome
  set pad := ind - calculateMinCodeIndent (op :: body ++ [cl]) with hpad
  have hcm : calculateMinCodeIndent (op :: body ++ [cl]) = m := by
    rw [calculateMinCodeIndent_surgery, hm]
  have hm2 : minFold (body.map (padLine pad)) = some (m + pad) := by
    rw [minFold_map_padLine, hm]
    rfl
  have hcm2 : calculateMinCodeIndent (op :: body.map (padLine pad) ++ [cl])
      = m + pad := by
    rw [calculateMinCodeIndent_surgery, hm2]
  rw [formatDiffBlock_padLine, hcm2]
  have hz : ind - (m + pad) = 0 := by
    rw [hpad, hcm]
    omega
  rw [hz, map_padLine_zero]

/-- The body lines of a found block (everything between the fences). -/
def blockBody (blk : DiffBlock) : List (List Char) :=
  (blk.lines.drop 1).take (blk.lines.length - 2)

theorem lineFormat_length :
    ∀ (n : Nat) (ls : List (List Char)), ls.length ≤ n →
      (lineFormat ls).length = ls.length := by
  intro n
  induction n with
  | zero =>
    intro ls hl
    have : ls = [] := List.eq_nil_of_length_eq_zero (by omega)
    subst this
    rfl
  | succ n ih =>
    intro ls hl
    rcases findAux_cases ls with hnone | ⟨pre, op, ind, body, cl, rest, rfl, hpre, hop, hbody, hcl⟩
    · rw [lineFormat_noblocks (hnone 0)]
    · rw [lineFormat_block pre op body cl rest ind hpre hop hbody hcl,
        formatDiffBlock_padLine]
      have hr : rest.length ≤ n := by
        have := hl
        simp only [List.length_append, List.length_cons] at this
        omega
      rw [show (pre ++ (op :: body.map (padLine (ind - calculateMinCodeIndent
          (op :: body ++ [cl]))) ++ [cl]) ++ lineFormat rest).length
          = pre.length + body.length + 2 + (lineFormat rest).length from by
        simp; omega]
      rw [ih rest hr]
      simp
      omega

theorem lineFormat_no_nl :
    ∀ (n : Nat) (ls : List (List Char)), ls.length ≤ n →
      (∀ l ∈ ls, '\n' ∉ l) → (∀ l ∈ lineFormat ls, '\n' ∉ l) := by
  intro n
  induction n with
  | zero =>
    intro ls hl hnl
    have : ls = [] := List.eq_nil_of_length_eq_zero (by omega)
    subst this
    simpa [lineFormat, findAux, assembleAux] using hnl
  | succ n ih =>
    intro ls hl hnl
    rcases findAux_cases ls with hnone | ⟨pre, op, ind, body, cl, rest, rfl, hpre, hop, hbody, hcl⟩
    · rw [lineFormat_noblocks (hnone 0)]
      exact hnl
    · rw [lineFormat_block pre op body cl rest ind hpre hop hbody hcl,
        formatDiffBlock_padLine]
      have hr : rest.length ≤ n := by
        have := hl
        simp only [List.length_append, List.length_cons] at this
        omega
      have hnlrest : ∀ l ∈ rest, '\n' ∉ l := by
        intro l hlr
        exact hnl l (by simp [hlr])
      intro l hmem
      rcases List.mem_append.mp hmem with h1 | hrest
      · rcases List.mem_append.mp h1 with hp | h2
        · exact hnl l (by simp [hp])
        · rcases List.mem_append.mp h2 with h3 | h5
          · rcases List.mem_cons.mp h3 with rfl | h4
            · exact hnl l (by simp)
            · obtain ⟨x, hx, rfl⟩ := List.mem_map.mp h4
              have hx2 : '\n' ∉ x := hnl x (by simp [hx])
              unfold padLine
              split
              · exact hx2
              · intro hm
                rcases List.mem_append.mp hm with hr1 | hr1
                · have := List.eq_of_mem_replicate hr1
                  simp at this
                · exact hx2 hr1
          · rw [List.mem_singleton] at h5
            subst h5
            exact hnl l (by simp)
      · exact ih rest hr hnlrest l hrest

theorem splitNl_joinNl_of_no_nl :
    ∀ (ls : List (List Char)), ls ≠ [] → (∀ l ∈ ls, '\n' ∉ l) →
      splitNl (joinNl ls) = ls := by
  intro ls
  induction ls with
  | nil => intro h; exact absurd rfl h
  | cons l ls ih =>
    intro _ hnl
    cases ls with
    | nil =>
      show splitNl (joinNl [l]) = [l]
      exact splitNl_of_no_nl (hnl l (by simp))
    | cons l2 ls2 =>
      show splitNl (l ++ '\n' :: joinNl (l2 :: ls2)) = l :: l2 :: ls2
      rw [splitNl_append _ (hnl l (by simp))]
      rw [ih (by simp) (fun x hx => hnl x (List.mem_cons_of_mem l hx))]

theorem lineFormat_idem :
    ∀ (n : Nat) (ls : List (List Char)), ls.length ≤ n →
      (∀ blk ∈ findAux ls 0 none, ∃ l ∈ blockBody blk,
        (jsTrim l).length ≠ 0 ∧ isDiffHeader l = false) →
      lineFormat (lineFormat ls) = lineFormat ls := by
  intro n
  induction n with
  | zero =>
    intro ls hl _
    have : ls = [] := List.eq_nil_of_length_eq_zero (by omega)
    subst this
    rfl
  | succ n ih =>
    intro ls hl hcond
    rcases findAux_cases ls with hnone | ⟨pre, op, ind, body, cl, rest, rfl, hpre, hop, hbody, hcl⟩
    · rw [lineFormat_noblocks (hnone 0), lineFormat_noblocks (hnone 0)]
    · have hfind := findAux_block pre op body cl rest 0 ind hpre hop hbody hcl
      have hfirst : (⟨0 + pre.length, 0 + pre.length + body.length + 1, ind,
          op :: body ++ [cl]⟩ : DiffBlock) ∈
          findAux (pre ++ op :: body ++ cl :: rest) 0 none := by
        rw [hfind]
        exact List.mem_cons_self _ _
      obtain ⟨lw, hlw, hlwb, hlwh⟩ := hcond _ hfirst
      have hlw2 : lw ∈ body := by
        simpa [blockBody, body_extract] using hlw
      have hsome : (minFold body).isSome := minFold_isSome_of_mem hlw2 hlwb hlwh
      set pad := ind - calculateMinCodeIndent (op :: body ++ [cl]) with hpaddef
      have hbody2 : ∀ l ∈ body.map (padLine pad), matchClose l = false := by
        intro l hlm
        obtain ⟨x, hx, rfl⟩ := List.mem_map.mp hlm
        rw [matchClose_padLine]
        exact hbody x hx
      have hr : rest.length ≤ n := by
        have := hl
        simp only [List.length_append, List.length_cons] at this
        omega
      have hcondrest : ∀ blk ∈ findAux rest 0 none, ∃ l ∈ blockBody blk,
          (jsTrim l).length ≠ 0 ∧ isDiffHeader l = false := by
        intro blk hblk
        have hmem : bShift (0 + pre.length + body.length + 2) blk ∈
            findAux (pre ++ op :: body ++ cl :: rest) 0 none := by
          rw [hfind]
          apply List.mem_cons_of_mem
          have := findAux_shift rest 0 (0 + pre.length + body.length + 2) none
          simp only [stShift, Nat.add_zero] at this
          rw [this]
          exact List.mem_map_of_mem _ hblk
        have := hcond _ hmem
        simpa [blockBody, bShift] using this
      rw [lineFormat_block pre op body cl rest ind hpre hop hbody hcl,
        formatDiffBlock_padLine, ← hpaddef]
      rw [show pre ++ (op :: body.map (padLine pad) ++ [cl]) ++ lineFormat rest
          = pre ++ op :: body.map (padLine pad) ++ cl :: lineFormat rest from by simp]
      rw [lineFormat_block pre op (body.map (padLine pad)) cl (lineFormat rest)
        ind hpre hop hbody2 hcl]
      rw [formatDiffBlock_padLine]
      have hrepad := fmtB_repad op cl body ind hsome
      rw [formatDiffBlock_padLine] at hrepad
      rw [← hpaddef] at hrepad
      rw [hrepad]
      rw [ih rest hr hcondrest]
      simp

theorem formatMarkdownB_idem (md : List Char)
    (hcond : ∀ blk ∈ findDiffBlocks md, ∃ l ∈ blockBody blk,
      (jsTrim l).length ≠ 0 ∧ isDiffHeader l = false) :
    formatMarkdown (formatMarkdown md) = formatMarkdown md := by
  rw [formatMarkdown_eq_lineFormat md,
    formatMarkdown_eq_lineFormat (joinNl (lineFormat (splitNl md)))]
  have hnl : ∀ l ∈ lineFormat (splitNl md), '\n' ∉ l :=
    lineFormat_no_nl (splitNl md).length _ le_rfl (fun l hl => not_nl_mem_splitNl hl)
  have hlen : (lineFormat (splitNl md)).length = (splitNl md).length :=
    lineFormat_length _ _ le_rfl
  have hne : lineFormat (splitNl md) ≠ [] := by
    intro h0
    rw [h0] at hlen
    exact splitNl_ne_nil md (List.eq_nil_of_length_eq_zero hlen.symm)
  rw [splitNl_joinNl_of_no_nl _ hne hnl]
  rw [lineFormat_idem (splitNl md).length _ le_rfl hcond]

theorem countNl_joinNl :
    ∀ (ls : List (List Char)), ls ≠ [] → (∀ l ∈ ls, '\n' ∉ l) →
      (joinNl ls).count '\n' = ls.length - 1 := by
  intro ls
  induction ls with
  | nil => intro h; exact absurd rfl h
  | cons l ls ih =>
    intro _ hnl
    cases ls with
    | nil =>
      show (joinNl [l]).count '\n' = 0
      exact List.count_eq_zero_of_not_mem (hnl l (by simp))
    | cons l2 ls2 =>
      show (l ++ '\n' :: joinNl (l2 :: ls2)).count '\n' = (l2 :: ls2).length + 1 - 1
      rw [List.count_append, List.count_cons]
      rw [List.count_eq_zero_of_not_mem (hnl l (by simp))]
      rw [ih (by simp) (fun x hx => hnl x (List.mem_cons_of_mem l hx))]
      simp

theorem formatMarkdownB_countNl (md : List Char) :
    (formatMarkdown md).count '\n' = md.count '\n' := by
  rw [formatMarkdown_eq_lineFormat md]
  have hnl0 : ∀ l ∈ splitNl md, '\n' ∉ l := fun l hl => not_nl_mem_splitNl hl
  have hnl : ∀ l ∈ lineFormat (splitNl md), '\n' ∉ l :=
    lineFormat_no_nl (splitNl md).length _ le_rfl hnl0
  have hlen : (lineFormat (splitNl md)).length = (splitNl md).length :=
    lineFormat_length _ _ le_rfl
  have hne : lineFormat (splitNl md) ≠ [] := by
    intro h0
    rw [h0] at hlen
    exact splitNl_ne_nil md (List.eq_nil_of_length_eq_zero hlen.symm)
  rw [countNl_joinNl _ hne hnl, hlen]
  conv_rhs => rw [← joinNl_splitNl md]
  rw [countNl_joinNl _ (splitNl_ne_nil md) hnl0]

/-- A segmentation of the line list: plain text runs and blocks. -/
inductive SegB where
  | txt (ls : List (List Char))
  | blk (fenceOpen : List Char) (body : List (List Char)) (fenceClose : List Char)
      (indent : Nat)

/-- The lines a segment covers in the input. -/
def SegB.srcLines : SegB → List (List Char)
  | .txt ls => ls
  | .blk fo b fc _ => fo :: b ++ [fc]

/-- The lines a segment contributes to the output. -/
def SegB.outLines : SegB → List (List Char)
  | .txt ls => ls
  | .blk fo b fc i => formatDiffBlock (fo :: b ++ [fc]) i

/-- Block test. -/
def SegB.isBlk : SegB → Bool
  | .txt _ => false
  | .blk _ _ _ _ => true

theorem lineFormat_segments :
    ∀ (n : Nat) (ls : List (List Char)), ls.length ≤ n →
      ∃ segs : List SegB,
        (segs.map SegB.srcLines).flatten = ls ∧
        lineFormat ls = (segs.map SegB.outLines).flatten ∧
        segs.countP (fun s => s.isBlk) = (findAux ls 0 none).length := by
  intro n
  induction n with
  | zero =>
    intro ls hl
    have : ls = [] := List.eq_nil_of_length_eq_zero (by omega)
    subst this
    exact ⟨[], by simp, by simp [lineFormat, findAux, assembleAux], by simp [findAux]⟩
  | succ n ih =>
    intro ls hl
    rcases findAux_cases ls with hnone | ⟨pre, op, ind, body, cl, rest, rfl, hpre, hop, hbody, hcl⟩
    · refine ⟨[SegB.txt ls], by simp [SegB.srcLines], ?_, ?_⟩
      · simp [SegB.outLines, lineFormat_noblocks (hnone 0)]
      · simp [SegB.isBlk, hnone 0]
    · have hr : rest.length ≤ n := by
        have := hl
        simp only [List.length_append, List.length_cons] at this
        omega
      obtain ⟨segs, hsrc, hout, hcount⟩ := ih rest hr
      refine ⟨SegB.txt pre :: SegB.blk op body cl ind :: segs, ?_, ?_, ?_⟩
      · simp only [List.map_cons, List.flatten_cons, SegB.srcLines, hsrc]
        simp
      · rw [lineFormat_block pre op body cl rest ind hpre hop hbody hcl]
        simp only [List.map_cons, List.flatten_cons, SegB.outLines, hout]
        simp
      · rw [findAux_block pre op body cl rest 0 ind hpre hop hbody hcl]
        simp only [List.countP_cons, SegB.isBlk, List.length_cons]
        have hlenmap : (findAux rest (0 + pre.length + body.length + 2) none).length
            = (findAux rest 0 none).length := by
          have := findAux_shift rest 0 (0 + pre.length + body.length + 2) none
          simp only [stShift, Nat.add_zero] at this
          rw [this, List.length_map]
        rw [hlenmap, ← hcount]
        simp
        rfl

theorem findAux_none_of_noclose {ls : List (List Char)}
    (h : ∀ l ∈ ls, matchClose l = false) :
    ∀ i, findAux ls i none = [] := by
  induction ls with
  | nil => intro i; rfl
  | cons l ls ih =>
    intro i
    have hp : ∀ x ∈ ls, matchClose x = false :=
      fun x hx => h x (List.mem_cons_of_mem l hx)
    simp only [findAux]
    rcases hm : matchOpen l with _ | ind
    · exact ih hp (i + 1)
    · exact findAux_noclose hp (i + 1) _

theorem formatMarkdownB_of_noblocks {md : List Char}
    (h : findDiffBlocks md = []) : formatMarkdown md = md := by
  simp [formatMarkdown, h]

end FormatDiffB

namespace FormatDiff

/-! Characterization of the character-level scanner. -/

theorem spacesRun_nil : spacesRun [] = 0 := rfl

theorem spacesRun_cons_space (l : List Char) : spacesRun (' ' :: l) = spacesRun l + 1 := by
  simp [spacesRun, List.takeWhile_cons]

theorem spacesRun_cons_ne {c : Char} (l : List Char) (h : ¬ c = ' ') :
    spacesRun (c :: l) = 0 := by
  simp [spacesRun, List.takeWhile_cons, h]

theorem spacesRun_append_stop {x : Char} (l r : List Char) (hx : ¬ x = ' ') :
    spacesRun (l ++ x :: r) = spacesRun l := by
  induction l with
  | nil => simp [spacesRun_cons_ne _ hx, spacesRun_nil]
  | cons c cs ih =>
    by_cases hc : c = ' '
    · subst hc
      simp only [List.cons_append, spacesRun_cons_space, ih]
    · simp only [List.cons_append, spacesRun_cons_ne _ hc, spacesRun_cons_ne _ hc]

theorem spacesRun_replicate (i : Nat) {c : Char} (r : List Char) (hc : ¬ c = ' ') :
    spacesRun (List.replicate i ' ' ++ c :: r) = i := by
  induction i with
  | zero => simp [spacesRun_cons_ne _ hc]
  | succ n ih =>
    simp only [List.replicate_succ, List.cons_append, spacesRun_cons_space, ih]

theorem spacesRun_le_length (l : List Char) : spacesRun l ≤ l.length := by
  induction l with
  | nil => simp [spacesRun]
  | cons c cs ih =>
    by_cases hc : c = ' '
    · subst hc
      rw [spacesRun_cons_space]
      simp only [List.length_cons]
      omega
    · rw [spacesRun_cons_ne _ hc]
      simp

theorem skipNlAux_no_nl {l : List Char} (h : '\n' ∉ l) : skipNlAux l = l.length := by
  induction l with
  | nil => rfl
  | cons c cs ih =>
    have hc : ¬ c = '\n' := fun hc => h (hc ▸ List.mem_cons_self c cs)
    have hcs : '\n' ∉ cs := fun hx => h (List.mem_cons_of_mem c hx)
    simp [skipNlAux, hc, ih hcs]
    omega

theorem skipNlAux_append_nl {l : List Char} (r : List Char) (h : '\n' ∉ l) :
    skipNlAux (l ++ '\n' :: r) = l.length + 1 := by
  induction l with
  | nil => simp [skipNlAux]
  | cons c cs ih =>
    have hc : ¬ c = '\n' := fun hc => h (hc ▸ List.mem_cons_self c cs)
    have hcs : '\n' ∉ cs := fun hx => h (List.mem_cons_of_mem c hx)
    simp [skipNlAux, hc, ih hcs]
    omega

theorem drop_of_drop_eq {content : List Char} {pos : Nat} {x : List Char}
    (h : content.drop pos = x) (k : Nat) : content.drop (pos + k) = x.drop k := by
  rw [FormatDiffB.drop_drop_add, h]

theorem getElem?_of_drop_eq {content : List Char} {pos : Nat} {x : List Char}
    (h : content.drop pos = x) (k : Nat) : content[pos + k]? = x[k]? := by
  rw [← List.getElem?_drop, h]

theorem length_of_drop_eq {content : List Char} {pos : Nat} {x : List Char}
    (h : content.drop pos = x) : x.length = content.length - pos := by
  rw [← h, List.length_drop]

theorem peekN_shift (content : List Char) (d n m : Nat) :
    peekN content (d + n) m = peekN (content.drop d) n m := by
  unfold peekN
  rw [FormatDiffB.drop_drop_add]

theorem skipToNewline_shift (content : List Char) (d n : Nat) :
    skipToNewline content (d + n) = d + skipToNewline (content.drop d) n := by
  unfold skipToNewline
  rw [FormatDiffB.drop_drop_add]
  omega

theorem parseDiffBlockStart_shift (content : List Char) (d k : Nat) :
    parseDiffBlockStart content (d + k)
      = (parseDiffBlockStart (content.drop d) k).map (fun r => (r.1, d + r.2)) := by
  unfold parseDiffBlockStart
  have h1 : content.drop (d + k) = (content.drop d).drop k :=
    FormatDiffB.drop_drop_add content d k
  rw [h1]
  dsimp only
  have h2 : d + k + spacesRun ((content.drop d).drop k)
      = d + (k + spacesRun ((content.drop d).drop k)) := by omega
  rw [h2, peekN_shift]
  by_cases hc : peekN (content.drop d) (k + spacesRun ((content.drop d).drop k)) 7
      = "```diff".data
  · rw [if_pos hc, if_pos hc]
    simp only [Option.map_some']
    have h3 : d + (k + spacesRun ((content.drop d).drop k)) + 7
        = d + (k + spacesRun ((content.drop d).drop k) + 7) := by omega
    rw [h3, skipToNewline_shift]
  · rw [if_neg hc, if_neg hc]
    rfl

theorem parseDiffBlockEnd_shift (content : List Char) (d k : Nat) :
    parseDiffBlockEnd content (d + k)
      = (parseDiffBlockEnd (content.drop d) k).map (fun e => d + e) := by
  unfold parseDiffBlockEnd
  have h1 : content.drop (d + k) = (content.drop d).drop k :=
    FormatDiffB.drop_drop_add content d k
  rw [h1]
  dsimp only
  have h2 : d + k + spacesRun ((content.drop d).drop k)
      = d + (k + spacesRun ((content.drop d).drop k)) := by omega
  rw [h2, peekN_shift]
  set s := spacesRun ((content.drop d).drop k) with hs
  by_cases hc : peekN (content.drop d) (k + s) 3 = "```".data
  · rw [if_pos hc, if_pos hc]
    have hlen : (content.drop d).length = content.length - d := by
      rw [List.length_drop]
    by_cases hq : k + s + 3 ≥ (content.drop d).length
    · have hq2 : d + (k + s) + 3 ≥ content.length := by
        rw [hlen] at hq
        omega
      rw [if_pos hq, if_pos hq2]
      simp only [Option.map_some']
      exact congrArg some (by omega)
    · have hq2 : ¬ d + (k + s) + 3 ≥ content.length := by
        rw [hlen] at hq
        omega
      rw [if_neg hq, if_neg hq2]
      have h3 : d + (k + s) + 3 = d + (k + s + 3) := by omega
      rw [h3, getElem?_of_drop_eq (rfl : content.drop d = content.drop d)]
      by_cases hnl : (content.drop d)[k + s + 3]? = some '\n'
      · rw [if_pos hnl, if_pos hnl]
        simp only [Option.map_some']
        exact congrArg some (by omega)
      · rw [if_neg hnl, if_neg hnl]
        rfl
  · rw [if_neg hc, if_neg hc]
    rfl

theorem findEnd_shift (content : List Char) (d : Nat) :
    ∀ k, findEnd content (d + k) = (findEnd (content.drop d) k).map (fun e => d + e) := by
  have hlen : (content.drop d).length = content.length - d := by
    rw [List.length_drop]
  have H : ∀ n k, (content.drop d).length - k ≤ n →
      findEnd content (d + k) = (findEnd (content.drop d) k).map (fun e => d + e) := by
    intro n
    induction n with
    | zero =>
      intro k hk
      conv_lhs => rw [findEnd]
      conv_rhs => rw [findEnd]
      have h1 : ¬ k < (content.drop d).length := by omega
      have h2 : ¬ d + k < content.length := by
        rw [hlen] at h1
        omega
      rw [dif_neg h1, dif_neg h2]
      rfl
    | succ n ih =>
      intro k hk
      conv_lhs => rw [findEnd]
      conv_rhs => rw [findEnd]
      by_cases h1 : k < (content.drop d).length
      · have h2 : d + k < content.length := by
          rw [hlen] at h1
          omega
        rw [dif_pos h1, dif_pos h2, parseDiffBlockEnd_shift]
        rcases he : parseDiffBlockEnd (content.drop d) k with _ | e
        · simp only [Option.map_none']
          rw [skipToNewline_shift]
          have hlt := skipToNewline_lt h1
          exact ih (skipToNewline (content.drop d) k) (by omega)
        · rfl
      · have h2 : ¬ d + k < content.length := by
          rw [hlen] at h1
          omega
        rw [dif_neg h1, dif_neg h2]
        rfl
  intro k
  exact H ((content.drop d).length - k) k (le_refl _)

theorem backSpaces_shift (content : List Char) (d s : Nat) :
    ∀ e, backSpaces content (d + s) (d + e) = d + backSpaces (content.drop d) s e := by
  intro e
  induction e with
  | zero =>
    cases d with
    | zero => rfl
    | succ d' =>
      show backSpaces content (d' + 1 + s) (d' + 1) = d' + 1 + backSpaces (content.drop (d' + 1)) s 0
      have hng : ¬ (d' + 1 + s < d' + 1 ∧ content[d']? = some ' ') := by
        rintro ⟨h1, _⟩
        omega
      conv_lhs => rw [backSpaces]
      rw [if_neg hng]
      simp [backSpaces]
  | succ e ih =>
    show backSpaces content (d + s) (d + e + 1) = _
    conv_lhs => rw [backSpaces]
    have hg : content[d + e]? = (content.drop d)[e]? :=
      getElem?_of_drop_eq (rfl : content.drop d = content.drop d) e
    by_cases hcond : s < e + 1 ∧ (content.drop d)[e]? = some ' '
    · have hcond2 : d + s < d + e + 1 ∧ content[d + e]? = some ' ' := by
        constructor
        · omega
        · rw [hg]; exact hcond.2
      rw [if_pos hcond2, ih]
      show _ = d + backSpaces (content.drop d) s (e + 1)
      conv_rhs => rw [backSpaces]
      rw [if_pos hcond]
    · have hcond2 : ¬ (d + s < d + e + 1 ∧ content[d + e]? = some ' ') := by
        rintro ⟨h1, h2⟩
        rw [hg] at h2
        exact hcond ⟨by omega, h2⟩
      rw [if_neg hcond2]
      show _ = d + backSpaces (content.drop d) s (e + 1)
      conv_rhs => rw [backSpaces]
      rw [if_neg hcond]
      omega

theorem backToNl_shift (content : List Char) (d s : Nat) :
    ∀ e, backToNl content (d + s) (d + e) = d + backToNl (content.drop d) s e := by
  intro e
  induction e with
  | zero =>
    cases d with
    | zero => rfl
    | succ d' =>
      show backToNl content (d' + 1 + s) (d' + 1) = d' + 1 + backToNl (content.drop (d' + 1)) s 0
      have hng : ¬ (d' + 1 + s < d' + 1 ∧ content[d']? ≠ some '\n') := by
        rintro ⟨h1, _⟩
        omega
      conv_lhs => rw [backToNl]
      rw [if_neg hng]
      simp [backToNl]
  | succ e ih =>
    show backToNl content (d + s) (d + e + 1) = _
    conv_lhs => rw [backToNl]
    have hg : content[d + e]? = (content.drop d)[e]? :=
      getElem?_of_drop_eq (rfl : content.drop d = content.drop d) e
    by_cases hcond : s < e + 1 ∧ (content.drop d)[e]? ≠ some '\n'
    · have hcond2 : d + s < d + e + 1 ∧ content[d + e]? ≠ some '\n' := by
        constructor
        · omega
        · rw [hg]; exact hcond.2
      rw [if_pos hcond2, ih]
      show _ = d + backToNl (content.drop d) s (e + 1)
      conv_rhs => rw [backToNl]
      rw [if_pos hcond]
    · have hcond2 : ¬ (d + s < d + e + 1 ∧ content[d + e]? ≠ some '\n') := by
        rintro ⟨h1, h2⟩
        rw [hg] at h2
        exact hcond ⟨by omega, h2⟩
      rw [if_neg hcond2]
      show _ = d + backToNl (content.drop d) s (e + 1)
      conv_rhs => rw [backToNl]
      rw [if_neg hcond]
      omega

theorem parseDiffBlockStart_ge {content : List Char} {pos i a : Nat}
    (h : parseDiffBlockStart content pos = some (i, a)) : pos + i + 7 ≤ a := by
  simp only [parseDiffBlockStart] at h
  split at h
  · simp only [Option.some.injEq, Prod.mk.injEq] at h
    obtain ⟨h1, h2⟩ := h
    subst h1
    subst h2
    simp only [skipToNewline]
    omega
  · cases h

/-- Shift all positions of a block by d. -/
def blockShift (d : Nat) (b : Block) : Block :=
  { fullStartPos := d + b.fullStartPos, fullEndPos := d + b.fullEndPos,
    contentStartPos := d + b.contentStartPos, contentEndPos := d + b.contentEndPos,
    indentLevel := b.indentLevel }

theorem parse_oob {content : List Char} {pos : Nat}
    (h : ¬ pos < content.length) : parse content pos = [] := by
  conv_lhs => rw [parse]
  rw [dif_neg h]

theorem parse_start_none {content : List Char} {pos : Nat}
    (h : pos < content.length) (hs : parseDiffBlockStart content pos = none) :
    parse content pos = parse content (pos + 1) := by
  conv_lhs => rw [parse]
  rw [dif_pos h]
  split
  · rename_i i a heq
    rw [hs] at heq
    cases heq
  · rfl

theorem parse_end_none {content : List Char} {pos i a : Nat}
    (h : pos < content.length)
    (hs : parseDiffBlockStart content pos = some (i, a))
    (he : findEnd content a = none) :
    parse content pos = [] := by
  conv_lhs => rw [parse]
  rw [dif_pos h]
  split
  · rename_i i' a' heq
    rw [hs] at heq
    injection heq with heq2
    injection heq2 with hi ha
    subst hi
    subst ha
    split
    · rename_i e heq3
      rw [he] at heq3
      cases heq3
    · rfl
  · rename_i heq
    rw [hs] at heq
    cases heq

theorem parse_end_some {content : List Char} {pos i a e : Nat}
    (h : pos < content.length)
    (hs : parseDiffBlockStart content pos = some (i, a))
    (he : findEnd content a = some e) :
    parse content pos =
      { fullStartPos := pos, fullEndPos := e, contentStartPos := a,
        contentEndPos := backToNl content a (backSpaces content a
          (e - (if content[e - 1]? = some '\n' then 4 else 3))),
        indentLevel := i } :: parse content e := by
  conv_lhs => rw [parse]
  rw [dif_pos h]
  split
  · rename_i i' a' heq
    rw [hs] at heq
    injection heq with heq2
    injection heq2 with hi ha
    subst hi
    subst ha
    split
    · rename_i e' heq3
      rw [he] at heq3
      injection heq3 with he2
      subst he2
      rfl
    · rename_i heq3
      rw [he] at heq3
      cases heq3
  · rename_i heq
    rw [hs] at heq
    cases heq

theorem parse_shift (content : List Char) (d : Nat) :
    ∀ k, parse content (d + k) = (parse (content.drop d) k).map (blockShift d) := by
  have hlen : (content.drop d).length = content.length - d := by
    rw [List.length_drop]
  have H : ∀ n k, (content.drop d).length - k ≤ n →
      parse content (d + k) = (parse (content.drop d) k).map (blockShift d) := by
    intro n
    induction n with
    | zero =>
      intro k hk
      have h1 : ¬ k < (content.drop d).length := by omega
      have h2 : ¬ d + k < content.length := by
        rw [hlen] at h1
        omega
      rw [parse_oob h1, parse_oob h2]
      rfl
    | succ n ih =>
      intro k hk
      by_cases h1 : k < (content.drop d).length
      · have h2 : d + k < content.length := by
          rw [hlen] at h1
          omega
        rcases hs : parseDiffBlockStart (content.drop d) k with _ | ⟨i, a⟩
        · have hsL : parseDiffBlockStart content (d + k) = none := by
            rw [parseDiffBlockStart_shift, hs]
            rfl
          rw [parse_start_none h2 hsL, parse_start_none h1 hs]
          rw [show d + k + 1 = d + (k + 1) from by omega]
          exact ih (k + 1) (by omega)
        · have hsL : parseDiffBlockStart content (d + k) = some (i, d + a) := by
            rw [parseDiffBlockStart_shift, hs]
            rfl
          have hka : k + i + 7 ≤ a := parseDiffBlockStart_ge hs
          rcases hf : findEnd (content.drop d) a with _ | e
          · have hfL : findEnd content (d + a) = none := by
              rw [findEnd_shift, hf]
              rfl
            rw [parse_end_none h2 hsL hfL, parse_end_none h1 hs hf]
            rfl
          · have hfL : findEnd content (d + a) = some (d + e) := by
              rw [findEnd_shift, hf]
              rfl
            have hae : a < e := findEnd_gt hf
            rw [parse_end_some h2 hsL hfL, parse_end_some h1 hs hf]
            simp only [List.map_cons]
            have hget : content[d + e - 1]? = (content.drop d)[e - 1]? := by
              rw [show d + e - 1 = d + (e - 1) from by omega]
              exact getElem?_of_drop_eq rfl (e - 1)
            have hcend : (d + e) - (if content[d + e - 1]? = some '\n' then 4 else 3)
                = d + (e - (if (content.drop d)[e - 1]? = some '\n' then 4 else 3)) := by
              rw [hget]
              split
              · omega
              · omega
            have hadj : backToNl content (d + a) (backSpaces content (d + a)
                ((d + e) - (if content[d + e - 1]? = some '\n' then 4 else 3)))
                = d + backToNl (content.drop d) a (backSpaces (content.drop d) a
                  (e - (if (content.drop d)[e - 1]? = some '\n' then 4 else 3))) := by
              rw [hcend, backSpaces_shift, backToNl_shift]
            have htail : parse content (d + e)
                = (parse (content.drop d) e).map (blockShift d) :=
              ih e (by omega)
            rw [hadj, htail]
            rfl
      · have h2 : ¬ d + k < content.length := by
          rw [hlen] at h1
          omega
        rw [parse_oob h1, parse_oob h2]
        rfl
  intro k
  exact H ((content.drop d).length - k) k (le_refl _)

/-- A line (no newline inside) that the character scanner accepts as a
closing fence when it stands before a newline or the end of input:
spaces, then exactly three backticks. -/
def lineClose (l : List Char) : Bool :=
  l.dropWhile (fun ch => ch = ' ') = "```".data

theorem takeWhile_spaces_eq_replicate (l : List Char) :
    l.takeWhile (fun ch => ch = ' ') = List.replicate (spacesRun l) ' ' := by
  induction l with
  | nil => rfl
  | cons x xs ih =>
    by_cases hx : x = ' '
    · subst hx
      rw [spacesRun_cons_space]
      simp [List.takeWhile_cons, List.replicate_succ, ih]
    · rw [spacesRun_cons_ne _ hx]
      simp [List.takeWhile_cons, hx]

theorem dropWhile_head_not {p : Char → Bool} {l x : List Char} {ch : Char}
    (h : l.dropWhile p = ch :: x) : p ch = false := by
  induction l with
  | nil => cases h
  | cons y ys ih =>
    rw [List.dropWhile_cons] at h
    split at h
    · exact ih h
    · rename_i hy
      injection h with h1 _
      subst h1
      simpa [Bool.not_eq_true] using hy

theorem spaces_decomp (l : List Char) :
    l = List.replicate (spacesRun l) ' ' ++ l.dropWhile (fun ch => ch = ' ') := by
  conv_lhs => rw [← List.takeWhile_append_dropWhile (p := fun ch => ch = ' ') (l := l)]
  rw [takeWhile_spaces_eq_replicate]

theorem parseDiffBlockEnd_at (content : List Char) (pos : Nat) :
    parseDiffBlockEnd content pos
      = (parseDiffBlockEnd (content.drop pos) 0).map (fun e => pos + e) := by
  have := parseDiffBlockEnd_shift content pos 0
  simpa using this

theorem parseDiffBlockStart_at (content : List Char) (pos : Nat) :
    parseDiffBlockStart content pos
      = (parseDiffBlockStart (content.drop pos) 0).map (fun r => (r.1, pos + r.2)) := by
  have := parseDiffBlockStart_shift content pos 0
  simpa using this

theorem tick3_getElem (j : Nat) (hj : j < 3) : "```".data[j]? = some '`' := by
  revert j
  decide

theorem parseDiffBlockEnd_line_nl {l : List Char} (rest : List Char)
    (hnl : '\n' ∉ l) :
    parseDiffBlockEnd (l ++ '\n' :: rest) 0
      = if lineClose l then some (l.length + 1) else none := by
  set s := spacesRun l with hs
  set l2 := l.dropWhile (fun ch => ch = ' ') with hl2
  have hld : l = List.replicate s ' ' ++ l2 := spaces_decomp l
  have hlen_l : l.length = s + l2.length := by
    rw [hld]
    simp
  have hsx : spacesRun (l ++ '\n' :: rest) = s := spacesRun_append_stop l rest (by decide)
  have hdrop : (l ++ '\n' :: rest).drop s = l2 ++ '\n' :: rest := by
    conv_lhs => rw [hld, List.append_assoc]
    have h0 := List.drop_left (List.replicate s ' ') (l2 ++ '\n' :: rest)
    rwa [List.length_replicate] at h0
  unfold parseDiffBlockEnd
  dsimp only
  simp only [List.drop_zero, Nat.zero_add, hsx]
  have hpeek : peekN (l ++ '\n' :: rest) s 3 = (l2 ++ '\n' :: rest).take 3 := by
    unfold peekN
    rw [hdrop]
  rw [hpeek]
  by_cases hclose : lineClose l
  · have hl3 : l2 = "```".data := by
      rw [lineClose, ← hl2] at hclose
      exact of_decide_eq_true hclose
    have htk : (l2 ++ '\n' :: rest).take 3 = "```".data := by
      rw [hl3]
      rw [show (3 : Nat) = ("```".data).length from rfl]
      exact List.take_left _ _
    rw [if_pos htk, if_pos hclose]
    have hq : ¬ s + 3 ≥ (l ++ '\n' :: rest).length := by
      simp only [List.length_append, List.length_cons, hlen_l, hl3]
      simp
    rw [if_neg hq]
    have hget : (l ++ '\n' :: rest)[s + 3]? = some '\n' := by
      have h1 : (l ++ '\n' :: rest)[s + 3]? = (l2 ++ '\n' :: rest)[3]? :=
        getElem?_of_drop_eq hdrop 3
      rw [h1, hl3, show "```".data = ['`', '`', '`'] from rfl]
      simp
    rw [if_pos hget]
    have : s + 3 + 1 = l.length + 1 := by
      rw [hlen_l, hl3]
      rfl
    rw [this]
  · by_cases hpk : (l2 ++ '\n' :: rest).take 3 = "```".data
    · rw [if_pos hpk, if_neg hclose]
      have hidx : ∀ j, j < 3 → (l2 ++ '\n' :: rest)[j]? = some '`' := by
        intro j hj
        have h1 := congrArg (fun t => t[j]?) hpk
        simp only at h1
        rw [List.getElem?_take, if_pos hj] at h1
        rw [h1]
        exact tick3_getElem j hj
      have hlen3 : 3 ≤ l2.length := by
        by_contra hlt
        push_neg at hlt
        have h1 : (l2 ++ '\n' :: rest)[l2.length]? = some '\n' := by
          rw [List.getElem?_append_right (le_refl _)]
          simp
        have h2 := hidx l2.length hlt
        rw [h1] at h2
        cases h2
      have htake3 : l2.take 3 = "```".data := by
        rw [← List.take_append_of_le_length hlen3]
        exact hpk
      have hl2d : l2 = "```".data ++ l2.drop 3 := by
        conv_lhs => rw [← List.take_append_drop 3 l2, htake3]
      have hne : l2.drop 3 ≠ [] := by
        intro h0
        apply hclose
        rw [lineClose, ← hl2]
        have : l2 = "```".data := by
          conv_lhs => rw [hl2d, h0]
          simp
        rw [this]
        simp
      obtain ⟨x0, xs0, hx0⟩ : ∃ x0 xs0, l2.drop 3 = x0 :: xs0 := by
        rcases hcase : l2.drop 3 with _ | ⟨x0, xs0⟩
        · exact absurd hcase hne
        · exact ⟨x0, xs0, rfl⟩
      have hx0mem : x0 ∈ l := by
        have h1 : x0 ∈ l2.drop 3 := by
          rw [hx0]
          simp
        have h2 : x0 ∈ l2 := List.mem_of_mem_drop h1
        rw [hl2] at h2
        exact (List.dropWhile_sublist _).mem h2
      have hx0nl : ¬ x0 = '\n' := fun h => hnl (h ▸ hx0mem)
      have hlgt : 3 < l2.length := by
        have := congrArg List.length hl2d
        simp only [List.length_append] at this
        rcases Nat.lt_or_ge 3 l2.length with h | h
        · exact h
        · have h30 : l2.length = 3 := by omega
          rw [List.drop_eq_nil_iff.mpr (by omega)] at hx0
          cases hx0
      have hq : ¬ s + 3 ≥ (l ++ '\n' :: rest).length := by
        simp only [List.length_append, List.length_cons, hlen_l]
        omega
      rw [if_neg hq]
      have hget : (l ++ '\n' :: rest)[s + 3]? = some x0 := by
        have h1 : (l ++ '\n' :: rest)[s + 3]? = (l2 ++ '\n' :: rest)[3]? :=
          getElem?_of_drop_eq hdrop 3
        rw [h1, List.getElem?_append, if_pos hlgt]
        have : l2[3]? = (l2.drop 3)[0]? := by
          rw [List.getElem?_drop]
        rw [this, hx0]
        simp
      rw [hget]
      have : ¬ (some x0 = some '\n') := by
        intro h
        injection h with h
        exact hx0nl h
      rw [if_neg this]
    · rw [if_neg hpk, if_neg hclose]

theorem parseDiffBlockEnd_line_eof {l : List Char} (hnl : '\n' ∉ l) :
    parseDiffBlockEnd l 0 = if lineClose l then some l.length else none := by
  set s := spacesRun l with hs
  set l2 := l.dropWhile (fun ch => ch = ' ') with hl2
  have hld : l = List.replicate s ' ' ++ l2 := spaces_decomp l
  have hlen_l : l.length = s + l2.length := by
    rw [hld]
    simp
  have hdrop : l.drop s = l2 := by
    conv_lhs => rw [hld]
    have h0 := List.drop_left (List.replicate s ' ') l2
    rwa [List.length_replicate] at h0
  unfold parseDiffBlockEnd
  dsimp only
  simp only [List.drop_zero, Nat.zero_add, ← hs]
  have hpeek : peekN l s 3 = l2.take 3 := by
    unfold peekN
    rw [hdrop]
  rw [hpeek]
  by_cases hclose : lineClose l
  · have hl3 : l2 = "```".data := by
      rw [lineClose, ← hl2] at hclose
      exact of_decide_eq_true hclose
    have hlen2 : l2.length = 3 := by
      rw [hl3]
      rfl
    have htk : l2.take 3 = "```".data := by
      rw [hl3]
      decide
    rw [if_pos htk, if_pos hclose]
    have hq : s + 3 ≥ l.length := by
      rw [hlen_l, hlen2]
    rw [if_pos hq]
    have heq : s + 3 = l.length := by
      rw [hlen_l, hlen2]
    rw [heq]
  · by_cases hpk : l2.take 3 = "```".data
    · rw [if_pos hpk, if_neg hclose]
      have hlen3 : 3 ≤ l2.length := by
        have := congrArg List.length hpk
        simp only [List.length_take] at this
        have h3 : ("```".data).length = 3 := rfl
        rw [h3] at this
        omega
      have hl2d : l2 = "```".data ++ l2.drop 3 := by
        conv_lhs => rw [← List.take_append_drop 3 l2, hpk]
      have hne : l2.drop 3 ≠ [] := by
        intro h0
        apply hclose
        rw [lineClose, ← hl2]
        have h2 : l2 = "```".data := by
          conv_lhs => rw [hl2d, h0]
          simp
        rw [h2]
        simp
      obtain ⟨x0, xs0, hx0⟩ : ∃ x0 xs0, l2.drop 3 = x0 :: xs0 := by
        rcases hcase : l2.drop 3 with _ | ⟨x0, xs0⟩
        · exact absurd hcase hne
        · exact ⟨x0, xs0, rfl⟩
      have hx0mem : x0 ∈ l := by
        have h1 : x0 ∈ l2.drop 3 := by
          rw [hx0]
          simp
        have h2 : x0 ∈ l2 := List.mem_of_mem_drop h1
        rw [hl2] at h2
        exact (List.dropWhile_sublist _).mem h2
      have hx0nl : ¬ x0 = '
' := fun h => hnl (h ▸ hx0mem)
      have hlgt : 3 < l2.length := by
        rcases Nat.lt_or_ge 3 l2.length with h | h
        · exact h
        · have h30 : l2.length = 3 := by omega
          rw [List.drop_eq_nil_iff.mpr (by omega)] at hx0
          cases hx0
      have hq : ¬ s + 3 ≥ l.length := by
        rw [hlen_l]
        omega
      rw [if_neg hq]
      have hget : l[s + 3]? = some x0 := by
        have h1 : l[s + 3]? = l2[3]? := getElem?_of_drop_eq hdrop 3
        have h2 : l2[3]? = (l2.drop 3)[0]? := by
          rw [List.getElem?_drop]
        rw [h1, h2, hx0]
        simp
      rw [hget]
      have hnx : ¬ (some x0 = some '
') := by
        intro h
        injection h with h
        exact hx0nl h
      rw [if_neg hnx]
    · rw [if_neg hpk, if_neg hclose]

theorem line_split (x : List Char) :
    ∃ l, '\n' ∉ l ∧ (x = l ∨ ∃ r, x = l ++ '\n' :: r) := by
  refine ⟨x.takeWhile (fun ch => ¬ ch = '\n'), ?_, ?_⟩
  · intro hmem
    have := List.mem_takeWhile_imp hmem
    simp at this
  · rcases hcase : x.dropWhile (fun ch => ¬ ch = '\n') with _ | ⟨ch, r⟩
    · left
      conv_lhs => rw [← List.takeWhile_append_dropWhile
        (p := fun ch => ¬ ch = '\n') (l := x)]
      rw [hcase, List.append_nil]
    · right
      have hch : ch = '\n' := by
        have := dropWhile_head_not hcase
        simpa using this
      subst hch
      refine ⟨r, ?_⟩
      conv_lhs => rw [← List.takeWhile_append_dropWhile
        (p := fun ch => ¬ ch = '\n') (l := x)]
      rw [hcase]

theorem parseDiffBlockEnd_inv {x : List Char} {e0 : Nat}
    (h : parseDiffBlockEnd x 0 = some e0) :
    ∃ s rem, x = List.replicate s ' ' ++ "```".data ++ rem ∧
      ((rem = [] ∧ e0 = s + 3 ∧ s + 3 = x.length) ∨
       (∃ r2, rem = '\n' :: r2 ∧ e0 = s + 3 + 1)) := by
  unfold parseDiffBlockEnd at h
  dsimp only at h
  simp only [List.drop_zero, Nat.zero_add] at h
  set s := spacesRun x with hs
  set x2 := x.dropWhile (fun ch => ch = ' ') with hx2
  have hxd : x = List.replicate s ' ' ++ x2 := spaces_decomp x
  have hdrop : x.drop s = x2 := by
    conv_lhs => rw [hxd]
    have h0 := List.drop_left (List.replicate s ' ') x2
    rwa [List.length_replicate] at h0
  rw [show peekN x s 3 = x2.take 3 from by unfold peekN; rw [hdrop]] at h
  by_cases hpk : x2.take 3 = "```".data
  · rw [if_pos hpk] at h
    have hlen3 : 3 ≤ x2.length := by
      have := congrArg List.length hpk
      simp only [List.length_take] at this
      have h3 : ("```".data).length = 3 := rfl
      rw [h3] at this
      omega
    have hx2d : x2 = "```".data ++ x2.drop 3 := by
      conv_lhs => rw [← List.take_append_drop 3 x2, hpk]
    refine ⟨s, x2.drop 3, ?_, ?_⟩
    · conv_lhs => rw [hxd, hx2d]
      simp
    · have hxlen : x.length = s + x2.length := by
        rw [hxd]
        simp
      by_cases hq : s + 3 ≥ x.length
      · rw [if_pos hq] at h
        injection h with he
        left
        have hr0 : x2.length = 3 := by omega
        refine ⟨?_, he.symm, by omega⟩
        rw [List.drop_eq_nil_iff]
        omega
      · rw [if_neg hq] at h
        have hget : x[s + 3]? = (x2.drop 3)[0]? := by
          have h1 : x[s + 3]? = x2[3]? := getElem?_of_drop_eq hdrop 3
          rw [h1, List.getElem?_drop]
        by_cases hnl : x[s + 3]? = some '\n'
        · rw [if_pos hnl] at h
          injection h with he
          right
          rw [hget] at hnl
          rcases hcase : x2.drop 3 with _ | ⟨ch, r2⟩
          · rw [hcase] at hnl
            cases hnl
          · rw [hcase] at hnl
            simp at hnl
            subst hnl
            exact ⟨r2, rfl, he.symm⟩
        · rw [if_neg hnl] at h
          cases h
  · rw [if_neg hpk] at h
    cases h

theorem findEnd_step {content : List Char} {pos : Nat} {l rest : List Char}
    (hd : content.drop pos = l ++ '\n' :: rest) (hnl : '\n' ∉ l)
    (hlc : lineClose l = false) :
    findEnd content pos = findEnd content (pos + (l.length + 1)) := by
  have hlen := length_of_drop_eq hd
  have hpos : pos < content.length := by
    simp only [List.length_append, List.length_cons] at hlen
    omega
  conv_lhs => rw [findEnd]
  rw [dif_pos hpos]
  have hend : parseDiffBlockEnd content pos = none := by
    rw [parseDiffBlockEnd_at, hd, parseDiffBlockEnd_line_nl rest hnl, hlc]
    rfl
  rw [hend]
  have hskip : skipToNewline content pos = pos + (l.length + 1) := by
    unfold skipToNewline
    rw [hd, skipNlAux_append_nl rest hnl]
  rw [hskip]

theorem findEnd_walk {content : List Char} (bs : List (List Char)) :
    ∀ (pos : Nat) (rest : List Char),
      content.drop pos = rawLines bs ++ rest →
      (∀ b ∈ bs, '\n' ∉ b ∧ lineClose b = false) →
      findEnd content pos = findEnd content (pos + (rawLines bs).length) := by
  induction bs with
  | nil =>
    intro pos rest _ _
    simp [rawLines]
  | cons b bs ih =>
    intro pos rest hd hbs
    rw [rawLines_cons] at hd
    have hb := hbs b (List.mem_cons_self b bs)
    have hbs2 : ∀ x ∈ bs, '\n' ∉ x ∧ lineClose x = false :=
      fun x hx => hbs x (List.mem_cons_of_mem b hx)
    have hd2 : content.drop pos = b ++ '\n' :: (rawLines bs ++ rest) := by
      rw [hd]
      simp
    rw [findEnd_step hd2 hb.1 hb.2]
    have hd3 : content.drop (pos + (b.length + 1)) = rawLines bs ++ rest := by
      have := drop_of_drop_eq hd2 (b.length + 1)
      rw [this]
      have h0 : b ++ '\n' :: (rawLines bs ++ rest)
          = (b ++ ['\n']) ++ (rawLines bs ++ rest) := by simp
      rw [h0]
      have h1 := List.drop_left (b ++ ['\n']) (rawLines bs ++ rest)
      have h2 : (b ++ ['\n']).length = b.length + 1 := by simp
      rwa [h2] at h1
    rw [ih (pos + (b.length + 1)) rest hd3 hbs2]
    congr 1
    rw [rawLines_cons]
    simp
    omega

theorem findEnd_close_nl {content : List Char} {pos : Nat} {cl rest : List Char}
    (hd : content.drop pos = cl ++ '\n' :: rest) (hnl : '\n' ∉ cl)
    (hlc : lineClose cl = true) :
    findEnd content pos = some (pos + cl.length + 1) := by
  have hlen := length_of_drop_eq hd
  have hpos : pos < content.length := by
    simp only [List.length_append, List.length_cons] at hlen
    omega
  conv_lhs => rw [findEnd]
  rw [dif_pos hpos]
  have hend : parseDiffBlockEnd content pos = some (pos + (cl.length + 1)) := by
    rw [parseDiffBlockEnd_at, hd, parseDiffBlockEnd_line_nl rest hnl, hlc]
    rfl
  rw [hend]
  have : pos + (cl.length + 1) = pos + cl.length + 1 := by omega
  rw [this]

theorem lineClose_ne_nil {cl : List Char} (h : lineClose cl = true) : cl ≠ [] := by
  intro h0
  subst h0
  simp [lineClose] at h

theorem findEnd_close_eof {content : List Char} {pos : Nat} {cl : List Char}
    (hd : content.drop pos = cl) (hnl : '\n' ∉ cl) (hlc : lineClose cl = true) :
    findEnd content pos = some (pos + cl.length) := by
  have hlen := length_of_drop_eq hd
  have hpos : pos < content.length := by
    have := lineClose_ne_nil hlc
    have h1 : 1 ≤ cl.length := by
      rcases cl with _ | _
      · exact absurd rfl this
      · simp
    omega
  conv_lhs => rw [findEnd]
  rw [dif_pos hpos]
  have hend : parseDiffBlockEnd content pos = some (pos + cl.length) := by
    rw [parseDiffBlockEnd_at, hd, parseDiffBlockEnd_line_eof hnl, hlc]
    rfl
  rw [hend]

theorem findEnd_oob {content : List Char} {pos : Nat}
    (h : ¬ pos < content.length) : findEnd content pos = none := by
  rw [findEnd, dif_neg h]

theorem findEnd_inv {content : List Char} :
    ∀ {pos e : Nat}, findEnd content pos = some e →
    ∃ bs s rem, (∀ b ∈ bs, '\n' ∉ b ∧ lineClose b = false) ∧
      content.drop pos = rawLines bs ++ (List.replicate s ' ' ++ "```".data ++ rem) ∧
      ((rem = [] ∧ e = pos + (rawLines bs).length + (s + 3) ∧ e = content.length) ∨
       (∃ r2, rem = '\n' :: r2 ∧ e = pos + (rawLines bs).length + (s + 3) + 1)) := by
  have H : ∀ (n : Nat) (pos e : Nat), content.length - pos ≤ n →
      findEnd content pos = some e →
      ∃ bs s rem, (∀ b ∈ bs, '\n' ∉ b ∧ lineClose b = false) ∧
        content.drop pos = rawLines bs ++ (List.replicate s ' ' ++ "```".data ++ rem) ∧
        ((rem = [] ∧ e = pos + (rawLines bs).length + (s + 3) ∧ e = content.length) ∨
         (∃ r2, rem = '\n' :: r2 ∧ e = pos + (rawLines bs).length + (s + 3) + 1)) := by
    intro n
    induction n with
    | zero =>
      intro pos e hn h
      rw [findEnd, dif_neg (by omega)] at h
      cases h
    | succ n ih =>
      intro pos e hn h
      by_cases hpos : pos < content.length
      · rw [findEnd, dif_pos hpos] at h
        rcases hpe : parseDiffBlockEnd content pos with _ | e0
        · rw [hpe] at h
          dsimp only at h
          obtain ⟨l, hlnl, hcase⟩ := line_split (content.drop pos)
          rcases hcase with hx | ⟨r, hx⟩
          · have hlen := length_of_drop_eq hx
            have hskip : skipToNewline content pos = content.length := by
              unfold skipToNewline
              rw [hx, skipNlAux_no_nl hlnl]
              omega
            rw [hskip, findEnd_oob (by omega)] at h
            cases h
          · have hlc : lineClose l = false := by
              by_cases hlc0 : lineClose l = true
              · exfalso
                rw [parseDiffBlockEnd_at, hx,
                  parseDiffBlockEnd_line_nl r hlnl, hlc0] at hpe
                simp at hpe
              · simpa using hlc0
            have hskip : skipToNewline content pos = pos + (l.length + 1) := by
              unfold skipToNewline
              rw [hx, skipNlAux_append_nl r hlnl]
            rw [hskip] at h
            have hr : content.drop (pos + (l.length + 1)) = r := by
              rw [drop_of_drop_eq hx]
              have h0 : l ++ '\n' :: r = (l ++ ['\n']) ++ r := by simp
              rw [h0]
              have h1 := List.drop_left (l ++ ['\n']) r
              have h2 : (l ++ ['\n']).length = l.length + 1 := by simp
              rwa [h2] at h1
            obtain ⟨bs', s, rem, hbs', hdrop', hbr⟩ := ih (pos + (l.length + 1)) e
              (by omega) h
            refine ⟨l :: bs', s, rem, ?_, ?_, ?_⟩
            · intro b hb
              rcases List.mem_cons.mp hb with rfl | hb2
              · exact ⟨hlnl, hlc⟩
              · exact hbs' b hb2
            · rw [hx, rawLines_cons]
              rw [hr] at hdrop'
              rw [hdrop']
              simp
            · have hlenraw : (rawLines (l :: bs')).length
                  = l.length + 1 + (rawLines bs').length := by
                rw [rawLines_cons]
                simp
                omega
              rcases hbr with ⟨h1, h2, h3⟩ | ⟨r2, h1, h2⟩
              · left
                exact ⟨h1, by rw [hlenraw]; omega, h3⟩
              · right
                exact ⟨r2, h1, by rw [hlenraw]; omega⟩
        · rw [hpe] at h
          dsimp only at h
          injection h with he0
          subst he0
          rw [parseDiffBlockEnd_at] at hpe
          rcases hpe0 : parseDiffBlockEnd (content.drop pos) 0 with _ | e1
          · rw [hpe0] at hpe
            cases hpe
          · rw [hpe0] at hpe
            simp only [Option.map_some'] at hpe
            injection hpe with hpe1
            obtain ⟨s, rem, hxd, hbr⟩ := parseDiffBlockEnd_inv hpe0
            refine ⟨[], s, rem, by simp, by rw [hxd]; simp [rawLines], ?_⟩
            have hdl : (content.drop pos).length = content.length - pos :=
              length_of_drop_eq rfl
            rcases hbr with ⟨h1, h2, h3⟩ | ⟨r2, h1, h2⟩
            · left
              refine ⟨h1, ?_, ?_⟩
              · rw [← hpe1, h2]
                simp [rawLines]
              · rw [← hpe1, h2]
                rw [h3, hdl]
                omega
            · right
              refine ⟨r2, h1, ?_⟩
              rw [← hpe1, h2]
              simp [rawLines]
              omega
      · rw [findEnd_oob hpos] at h
        cases h
  intro pos e h
  exact H (content.length - pos) pos e (le_refl _) h

theorem diff7_ne_space : ("```diff".data).head? = some '`' := rfl

theorem spacesRun_replicate_diff (i : Nat) (t : List Char) :
    spacesRun (List.replicate i ' ' ++ "```diff".data ++ t) = i := by
  have hd : List.replicate i ' ' ++ "```diff".data ++ t
      = List.replicate i ' ' ++ '`' :: ("``diff".data ++ t) := by
    simp
  rw [hd]
  exact spacesRun_replicate i _ (by decide)

theorem parseDiffBlockStart_fence_nl {content : List Char} {pos i : Nat}
    {junk rest : List Char}
    (hd : content.drop pos
      = List.replicate i ' ' ++ "```diff".data ++ junk ++ '\n' :: rest)
    (hj : '\n' ∉ junk) :
    parseDiffBlockStart content pos = some (i, pos + (i + 7 + junk.length + 1)) := by
  rw [parseDiffBlockStart_at, hd]
  have hsr : spacesRun (List.replicate i ' ' ++ "```diff".data ++ (junk ++ '\n' :: rest)) = i :=
    spacesRun_replicate_diff i (junk ++ '\n' :: rest)
  unfold parseDiffBlockStart
  dsimp only
  simp only [List.drop_zero, Nat.zero_add, List.append_assoc] at hsr ⊢
  rw [hsr]
  have hdropi : (List.replicate i ' ' ++ ("```diff".data ++ (junk ++ '\n' :: rest))).drop i
      = "```diff".data ++ (junk ++ '\n' :: rest) := by
    have h0 := List.drop_left (List.replicate i ' ') ("```diff".data ++ (junk ++ '\n' :: rest))
    rwa [List.length_replicate] at h0
  have hpeek : peekN (List.replicate i ' ' ++ ("```diff".data ++ (junk ++ '\n' :: rest))) i 7
      = "```diff".data := by
    unfold peekN
    rw [hdropi]
    rw [show (7 : Nat) = ("```diff".data).length from rfl]
    exact List.take_left _ _
  rw [if_pos hpeek]
  have hdrop7 : (List.replicate i ' ' ++ ("```diff".data ++ (junk ++ '\n' :: rest))).drop (i + 7)
      = junk ++ '\n' :: rest := by
    have h1 : (List.replicate i ' ' ++ ("```diff".data ++ (junk ++ '\n' :: rest))).drop (i + 7)
        = (("```diff".data ++ (junk ++ '\n' :: rest))).drop 7 := by
      rw [FormatDiffB.drop_drop_add]
      rw [hdropi]
    rw [h1]
    rw [show (7 : Nat) = ("```diff".data).length from rfl]
    exact List.drop_left _ _
  have hskip : skipToNewline (List.replicate i ' ' ++ ("```diff".data ++ (junk ++ '\n' :: rest))) (i + 7)
      = i + 7 + (junk.length + 1) := by
    unfold skipToNewline
    rw [hdrop7, skipNlAux_append_nl rest hj]
  simp only [Option.map_some']
  rw [hskip]
  have : pos + (i + 7 + (junk.length + 1)) = pos + (i + 7 + junk.length + 1) := by omega
  rw [this]

theorem parseDiffBlockStart_fence_eof {content : List Char} {pos i : Nat}
    {junk : List Char}
    (hd : content.drop pos = List.replicate i ' ' ++ "```diff".data ++ junk)
    (hj : '\n' ∉ junk) :
    parseDiffBlockStart content pos = some (i, pos + (i + 7 + junk.length)) := by
  rw [parseDiffBlockStart_at, hd]
  have hsr : spacesRun (List.replicate i ' ' ++ "```diff".data ++ junk) = i :=
    spacesRun_replicate_diff i junk
  unfold parseDiffBlockStart
  dsimp only
  simp only [List.drop_zero, Nat.zero_add, List.append_assoc] at hsr ⊢
  rw [hsr]
  have hdropi : (List.replicate i ' ' ++ ("```diff".data ++ junk)).drop i
      = "```diff".data ++ junk := by
    have h0 := List.drop_left (List.replicate i ' ') ("```diff".data ++ junk)
    rwa [List.length_replicate] at h0
  have hpeek : peekN (List.replicate i ' ' ++ ("```diff".data ++ junk)) i 7
      = "```diff".data := by
    unfold peekN
    rw [hdropi]
    rw [show (7 : Nat) = ("```diff".data).length from rfl]
    exact List.take_left _ _
  rw [if_pos hpeek]
  have hdrop7 : (List.replicate i ' ' ++ ("```diff".data ++ junk)).drop (i + 7) = junk := by
    have h1 : (List.replicate i ' ' ++ ("```diff".data ++ junk)).drop (i + 7)
        = ("```diff".data ++ junk).drop 7 := by
      rw [FormatDiffB.drop_drop_add]
      rw [hdropi]
    rw [h1]
    rw [show (7 : Nat) = ("```diff".data).length from rfl]
    exact List.drop_left _ _
  have hskip : skipToNewline (List.replicate i ' ' ++ ("```diff".data ++ junk)) (i + 7)
      = i + 7 + junk.length := by
    unfold skipToNewline
    rw [hdrop7, skipNlAux_no_nl hj]
  simp only [Option.map_some']
  rw [hskip]

theorem parseDiffBlockStart_inv {content : List Char} {pos i a : Nat}
    (h : parseDiffBlockStart content pos = some (i, a)) :
    ∃ junk, '\n' ∉ junk ∧
      ((content.drop pos = List.replicate i ' ' ++ "```diff".data ++ junk ∧
          a = pos + i + 7 + junk.length ∧ a = content.length) ∨
       (∃ r, content.drop pos
            = List.replicate i ' ' ++ "```diff".data ++ junk ++ '\n' :: r ∧
          a = pos + i + 7 + junk.length + 1)) := by
  rw [parseDiffBlockStart_at] at h
  rcases h0 : parseDiffBlockStart (content.drop pos) 0 with _ | ⟨i0, a0⟩
  · rw [h0] at h
    cases h
  · rw [h0] at h
    simp only [Option.map_some'] at h
    injection h with h1
    injection h1 with hi ha
    subst hi
    set x := content.drop pos with hx
    unfold parseDiffBlockStart at h0
    dsimp only at h0
    simp only [List.drop_zero, Nat.zero_add] at h0
    split at h0
    · rename_i hpeek
      injection h0 with h1
      injection h1 with hi0 ha0
      set s := spacesRun x with hs
      have hxd : x = List.replicate s ' ' ++ x.dropWhile (fun ch => ch = ' ') :=
        spaces_decomp x
      have hdrops : x.drop s = x.dropWhile (fun ch => ch = ' ') := by
        conv_lhs => rw [hxd]
        have h2 := List.drop_left (List.replicate s ' ')
          (x.dropWhile (fun ch => ch = ' '))
        rwa [List.length_replicate] at h2
      have hpk : (x.drop s).take 7 = "```diff".data := by
        unfold peekN at hpeek
        exact hpeek
      have hx2d : x.drop s = "```diff".data ++ (x.drop s).drop 7 := by
        conv_lhs => rw [← List.take_append_drop 7 (x.drop s), hpk]
      have hdrop7 : x.drop (s + 7) = (x.drop s).drop 7 := by
        rw [FormatDiffB.drop_drop_add]
      obtain ⟨l, hlnl, hlcase⟩ := line_split ((x.drop s).drop 7)
      subst hi0
      refine ⟨l, hlnl, ?_⟩
      have hxfull : x = List.replicate s ' ' ++ "```diff".data ++ ((x.drop s).drop 7) := by
        conv_lhs => rw [hxd]
        rw [← hdrops]
        conv_lhs => rw [hx2d]
        simp
      rcases hlcase with hl | ⟨r, hl⟩
      · left
        have hskip : a0 = s + 7 + l.length := by
          rw [← ha0]
          unfold skipToNewline
          rw [hdrop7, hl, skipNlAux_no_nl hlnl]
        have hlenx : x.length = s + 7 + l.length := by
          conv_lhs => rw [hxfull, hl]
          simp
          omega
        have hlenx2 : x.length = content.length - pos := length_of_drop_eq hx.symm
        have hposle : pos ≤ content.length := by
          by_cases hp : pos ≤ content.length
          · exact hp
          · exfalso
            have : x = [] := by
              rw [hx]
              rw [List.drop_eq_nil_iff]
              omega
            rw [this] at hlenx
            simp at hlenx
            have hne : ("```diff".data).length = 7 := rfl
            rw [hxfull] at this
            simp at this
        refine ⟨by rw [hxfull, hl], by omega, by omega⟩
      · right
        have hskip : a0 = s + 7 + (l.length + 1) := by
          rw [← ha0]
          unfold skipToNewline
          rw [hdrop7, hl, skipNlAux_append_nl r hlnl]
        refine ⟨r, ?_, by omega⟩
        rw [hxfull, hl]
        simp
    · cases h0

theorem parse_walk {content : List Char} :
    ∀ (n pos : Nat), (∀ k, k < n → parseDiffBlockStart content (pos + k) = none) →
      parse content pos = parse content (pos + n) := by
  intro n
  induction n with
  | zero => intro pos _; rfl
  | succ n ih =>
    intro pos h
    by_cases hp : pos < content.length
    · have h0 : parseDiffBlockStart content pos = none := by
        have := h 0 (by omega)
        simpa using this
      rw [parse_start_none hp h0]
      have h2 : ∀ k, k < n → parseDiffBlockStart content (pos + 1 + k) = none := by
        intro k hk
        have := h (k + 1) (by omega)
        rwa [show pos + (k + 1) = pos + 1 + k from by omega] at this
      rw [ih (pos + 1) h2]
      congr 1
      omega
    · rw [parse_oob hp, parse_oob (by omega : ¬ pos + (n + 1) < content.length)]

theorem backSpaces_fence {content : List Char} {start m : Nat} :
    ∀ {s : Nat}, (∀ j, j < s → content[start + m + j]? = some ' ') →
      (m = 0 ∨ ¬ content[start + m - 1]? = some ' ') →
      backSpaces content start (start + m + s) = start + m := by
  intro s
  induction s with
  | zero =>
    intro _ hstop
    show backSpaces content start (start + m) = start + m
    rcases Nat.eq_zero_or_pos (start + m) with h0 | h0
    · rw [h0]
      rfl
    · obtain ⟨t, ht⟩ : ∃ t, start + m = t + 1 := ⟨start + m - 1, by omega⟩
      rw [ht, backSpaces]
      have hcond : ¬ (start < t + 1 ∧ content[t]? = some ' ') := by
        rintro ⟨h1, h2⟩
        rcases hstop with hm | hns
        · omega
        · apply hns
          have heq : start + m - 1 = t := by omega
          rw [heq]
          exact h2
      rw [if_neg hcond]
  | succ s ih =>
    intro hsp hstop
    show backSpaces content start (start + m + s + 1) = start + m
    rw [backSpaces]
    have hcond : start < start + m + s + 1 ∧ content[start + m + s]? = some ' ' := by
      exact ⟨by omega, hsp s (by omega)⟩
    rw [if_pos hcond]
    exact ih (fun j hj => hsp j (by omega)) hstop

theorem backToNl_fence {content : List Char} {start m : Nat}
    (h : m = 0 ∨ content[start + m - 1]? = some '\n') :
    backToNl content start (start + m) = start + m := by
  rcases Nat.eq_zero_or_pos (start + m) with h0 | h0
  · rw [h0]
    rfl
  · obtain ⟨t, ht⟩ : ∃ t, start + m = t + 1 := ⟨start + m - 1, by omega⟩
    rw [ht, backToNl]
    have hcond : ¬ (start < t + 1 ∧ content[t]? ≠ some '\n') := by
      rintro ⟨h1, h2⟩
      rcases h with hm | hnl
      · omega
      · apply h2
        have heq : start + m - 1 = t := by omega
        rw [heq] at hnl
        exact hnl
    rw [if_neg hcond]

theorem lineClose_fence (s : Nat) :
    lineClose (List.replicate s ' ' ++ "```".data) = true := by
  rw [lineClose]
  have h0 : (List.replicate s ' ' ++ "```".data).dropWhile (fun ch => ch = ' ')
      = ("```".data).dropWhile (fun ch => ch = ' ') := by
    induction s with
    | zero => rfl
    | succ n ih =>
      simp only [List.replicate_succ, List.cons_append, List.dropWhile_cons]
      simpa using ih
  rw [h0]
  decide

theorem nl_not_mem_fence (s : Nat) :
    '\n' ∉ List.replicate s ' ' ++ "```".data := by
  intro h
  rcases List.mem_append.mp h with h1 | h1
  · have := List.eq_of_mem_replicate h1
    cases this
  · simp at h1

theorem rawLines_ends_nl {bs : List (List Char)} (h : bs ≠ []) :
    (rawLines bs)[(rawLines bs).length - 1]? = some '\n' := by
  induction bs with
  | nil => exact absurd rfl h
  | cons b bs ih =>
    rw [rawLines_cons]
    cases bs with
    | nil =>
      simp only [rawLines_nil]
      have hlen : (b ++ '\n' :: ([] : List Char)).length = b.length + 1 := by simp
      rw [hlen]
      simp only [Nat.add_sub_cancel]
      rw [List.getElem?_append_right (by simp)]
      simp
    | cons b2 bs2 =>
      have hne : (b2 :: bs2 : List (List Char)) ≠ [] := by simp
      have ihx := ih hne
      have hlen : (b ++ '\n' :: rawLines (b2 :: bs2)).length
          = b.length + 1 + (rawLines (b2 :: bs2)).length := by
        simp
        omega
      rw [hlen]
      have hpos : b.length + 1 + (rawLines (b2 :: bs2)).length - 1
          = (b ++ ['\n']).length + ((rawLines (b2 :: bs2)).length - 1) := by
        have : (rawLines (b2 :: bs2)).length ≥ 1 := by
          rw [rawLines_cons]
          simp
          omega
        simp
        omega
      rw [hpos]
      have hre : b ++ '\n' :: rawLines (b2 :: bs2)
          = (b ++ ['\n']) ++ rawLines (b2 :: bs2) := by simp
      rw [hre, List.getElem?_append_right (by omega)]
      have : (b ++ ['\n']).length + ((rawLines (b2 :: bs2)).length - 1)
          - (b ++ ['\n']).length = (rawLines (b2 :: bs2)).length - 1 := by omega
      rw [this]
      exact ihx

theorem parse_block {content : List Char} {pos : Nat} {o : List Char} {i : Nat}
    {junk : List Char} {bs : List (List Char)} {s : Nat} {nlOpt t : List Char}
    (ho : ∀ k, k < o.length → parseDiffBlockStart content (pos + k) = none)
    (hj : '\n' ∉ junk)
    (hbs : ∀ b ∈ bs, '\n' ∉ b ∧ lineClose b = false)
    (hnl : nlOpt = ['\n'] ∨ (nlOpt = [] ∧ t = []))
    (hd : content.drop pos
      = o ++ (List.replicate i ' ' ++ "```diff".data ++ junk ++ ['\n'])
          ++ rawLines bs ++ (List.replicate s ' ' ++ "```".data ++ nlOpt) ++ t) :
    parse content pos =
      { fullStartPos := pos + o.length,
        fullEndPos := pos + o.length + (i + 7 + junk.length + 1)
          + (rawLines bs).length + (s + 3 + nlOpt.length),
        contentStartPos := pos + o.length + (i + 7 + junk.length + 1),
        contentEndPos := pos + o.length + (i + 7 + junk.length + 1)
          + (rawLines bs).length,
        indentLevel := i }
      :: parse content (pos + o.length + (i + 7 + junk.length + 1)
          + (rawLines bs).length + (s + 3 + nlOpt.length)) := by
  have hflen : (List.replicate i ' ' ++ "```diff".data ++ junk ++ ['\n']).length
      = i + 7 + junk.length + 1 := by
    simp
    omega
  have hcllen : (List.replicate s ' ' ++ "```".data).length = s + 3 := by
    simp
  set P := pos + o.length with hP
  set A := P + (i + 7 + junk.length + 1) with hA
  set m := (rawLines bs).length with hm
  set E0 := A + m with hE0
  set E := E0 + (s + 3 + nlOpt.length) with hE
  have hdR : content.drop pos
      = o ++ ((List.replicate i ' ' ++ "```diff".data ++ junk ++ ['\n'])
          ++ (rawLines bs ++ ((List.replicate s ' ' ++ "```".data ++ nlOpt) ++ t))) := by
    rw [hd]
    simp
  have hdP : content.drop P
      = (List.replicate i ' ' ++ "```diff".data ++ junk ++ ['\n'])
          ++ (rawLines bs ++ ((List.replicate s ' ' ++ "```".data ++ nlOpt) ++ t)) := by
    rw [hP, drop_of_drop_eq hdR o.length, List.drop_left]
  have hdA : content.drop A
      = rawLines bs ++ ((List.replicate s ' ' ++ "```".data ++ nlOpt) ++ t) := by
    rw [hA, ← hflen, drop_of_drop_eq hdP
      (List.replicate i ' ' ++ "```diff".data ++ junk ++ ['\n']).length,
      List.drop_left]
  have hdE0 : content.drop E0
      = (List.replicate s ' ' ++ "```".data ++ nlOpt) ++ t := by
    rw [hE0, hm, drop_of_drop_eq hdA (rawLines bs).length, List.drop_left]
  have hstart : parseDiffBlockStart content P = some (i, A) := by
    have hd2 : content.drop P
        = List.replicate i ' ' ++ "```diff".data ++ junk
          ++ '\n' :: (rawLines bs ++ ((List.replicate s ' ' ++ "```".data ++ nlOpt) ++ t)) := by
      rw [hdP]
      simp
    rw [parseDiffBlockStart_fence_nl hd2 hj, hA]
  have hPlen : P < content.length := by
    have := length_of_drop_eq hdP
    simp only [List.length_append, List.length_cons] at this
    omega
  have hfind : findEnd content A = some E := by
    have hw := findEnd_walk bs A _ hdA hbs
    rw [hw, ← hm, ← hE0]
    rcases hnl with hcase | ⟨hcase, hT⟩
    · have hd3 : content.drop E0
          = (List.replicate s ' ' ++ "```".data) ++ '\n' :: t := by
        rw [hdE0, hcase]
        simp
      rw [findEnd_close_nl hd3 (nl_not_mem_fence s) (lineClose_fence s), hcllen,
        hE, hcase]
      exact congrArg some (by simp; omega)
    · have hd3 : content.drop E0 = (List.replicate s ' ' ++ "```".data) := by
        rw [hdE0, hcase, hT]
        simp
      rw [findEnd_close_eof hd3 (nl_not_mem_fence s) (lineClose_fence s), hcllen,
        hE, hcase]
      exact congrArg some (by simp)
  have hEδ : (E - (if content[E - 1]? = some '\n' then 4 else 3)) = E0 + s := by
    rcases hnl with hcase | ⟨hcase, hT⟩
    · have hg : content[E - 1]? = some '\n' := by
        have h1 : E - 1 = E0 + (s + 3) := by
          rw [hE, hcase]
          simp
        rw [h1, getElem?_of_drop_eq hdE0 (s + 3)]
        have h2 : (List.replicate s ' ' ++ "```".data ++ nlOpt) ++ t
            = (List.replicate s ' ' ++ "```".data) ++ (nlOpt ++ t) := by simp
        rw [h2, List.getElem?_append_right (by rw [hcllen]), hcllen, hcase]
        simp
      rw [if_pos hg, hE, hcase]
      simp
      omega
    · have hg : ¬ content[E - 1]? = some '\n' := by
        have h1 : E - 1 = E0 + (s + 2) := by
          rw [hE, hcase]
          simp
        rw [h1, getElem?_of_drop_eq hdE0 (s + 2), hcase, hT]
        have h2 : (List.replicate s ' ' ++ "```".data ++ ([] : List Char))
            ++ ([] : List Char) = List.replicate s ' ' ++ "```".data := by simp
        rw [h2, List.getElem?_append_right (by simp)]
        intro hcontra
        rw [List.length_replicate] at hcontra
        have h4 : s + 2 - s = 2 := by omega
        rw [h4] at hcontra
        cases hcontra
      rw [if_neg hg, hE, hcase]
      simp
      omega
  have hstop : m = 0 ∨ content[A + m - 1]? = some '\n' := by
    rcases hbs0 : bs with _ | ⟨b0, bs0⟩
    · left
      rw [hm, hbs0]
      rfl
    · right
      have h1 : (rawLines bs)[(rawLines bs).length - 1]? = some '\n' := by
        rw [hbs0]
        exact rawLines_ends_nl (by simp)
      have hmpos : 1 ≤ m := by
        rw [hm, hbs0, rawLines_cons]
        simp
        omega
      have h2 : A + m - 1 = A + (m - 1) := by omega
      rw [h2, getElem?_of_drop_eq hdA (m - 1), List.getElem?_append,
        if_pos (show m - 1 < (rawLines bs).length from by rw [← hm]; omega)]
      rw [← hm] at h1
      rw [hm] at h1 ⊢
      exact h1
  have hbsp : backSpaces content A (E0 + s) = E0 := by
    have h0 : E0 + s = A + m + s := by rw [hE0]
    rw [h0, hE0]
    apply backSpaces_fence
    · intro j hj2
      have h1 : A + m + j = E0 + j := by rw [hE0]
      rw [h1, getElem?_of_drop_eq hdE0 j]
      have h2 : (List.replicate s ' ' ++ "```".data ++ nlOpt) ++ t
          = List.replicate s ' ' ++ ("```".data ++ nlOpt ++ t) := by simp
      rw [h2, List.getElem?_append, if_pos (by rw [List.length_replicate]; omega),
        List.getElem?_replicate, if_pos hj2]
    · rcases hstop with h1 | h1
      · left
        exact h1
      · right
        rw [h1]
        intro hcontra
        injection hcontra with hcontra
        cases hcontra
  have hbnl : backToNl content A E0 = E0 := by
    rw [hE0]
    exact backToNl_fence hstop
  rw [parse_walk o.length pos ho, ← hP, parse_end_some hPlen hstart hfind]
  rw [hEδ, hbsp, hbnl]

theorem decomp_drop_tail {content : List Char} {pos : Nat} {o : List Char} {i : Nat}
    {junk : List Char} {bs : List (List Char)} {s : Nat} {nlOpt t : List Char}
    (hd : content.drop pos
      = o ++ (List.replicate i ' ' ++ "```diff".data ++ junk ++ ['\n'])
          ++ rawLines bs ++ (List.replicate s ' ' ++ "```".data ++ nlOpt) ++ t) :
    content.drop (pos + o.length + (i + 7 + junk.length + 1)
      + (rawLines bs).length + (s + 3 + nlOpt.length)) = t := by
  have hd2 : content.drop pos
      = (o ++ (List.replicate i ' ' ++ "```diff".data ++ junk ++ ['\n'])
          ++ rawLines bs ++ (List.replicate s ' ' ++ "```".data ++ nlOpt)) ++ t := by
    rw [hd]
  have hlen : (o ++ (List.replicate i ' ' ++ "```diff".data ++ junk ++ ['\n'])
      ++ rawLines bs ++ (List.replicate s ' ' ++ "```".data ++ nlOpt)).length
      = o.length + (i + 7 + junk.length + 1) + (rawLines bs).length
        + (s + 3 + nlOpt.length) := by
    simp
    omega
  have harith : pos + o.length + (i + 7 + junk.length + 1) + (rawLines bs).length
      + (s + 3 + nlOpt.length)
      = pos + (o ++ (List.replicate i ' ' ++ "```diff".data ++ junk ++ ['\n'])
          ++ rawLines bs ++ (List.replicate s ' ' ++ "```".data ++ nlOpt)).length := by
    rw [hlen]
    omega
  rw [harith, drop_of_drop_eq hd2, List.drop_left]

theorem parse_cases (content : List Char) :
    ∀ pos, parse content pos = [] ∨
    ∃ o i junk bs s nlOpt t,
      (∀ k, k < o.length → parseDiffBlockStart content (pos + k) = none) ∧
      '\n' ∉ junk ∧
      (∀ b ∈ bs, '\n' ∉ b ∧ lineClose b = false) ∧
      (nlOpt = ['\n'] ∨ (nlOpt = [] ∧ t = [])) ∧
      content.drop pos
        = o ++ (List.replicate i ' ' ++ "```diff".data ++ junk ++ ['\n'])
            ++ rawLines bs ++ (List.replicate s ' ' ++ "```".data ++ nlOpt) ++ t := by
  have H : ∀ (n : Nat) (pos : Nat), content.length - pos ≤ n →
      parse content pos = [] ∨
      ∃ o i junk bs s nlOpt t,
        (∀ k, k < o.length → parseDiffBlockStart content (pos + k) = none) ∧
        '\n' ∉ junk ∧
        (∀ b ∈ bs, '\n' ∉ b ∧ lineClose b = false) ∧
        (nlOpt = ['\n'] ∨ (nlOpt = [] ∧ t = [])) ∧
        content.drop pos
          = o ++ (List.replicate i ' ' ++ "```diff".data ++ junk ++ ['\n'])
              ++ rawLines bs ++ (List.replicate s ' ' ++ "```".data ++ nlOpt) ++ t := by
    intro n
    induction n with
    | zero =>
      intro pos hn
      left
      exact parse_oob (by omega)
    | succ n ih =>
      intro pos hn
      by_cases hpos : pos < content.length
      · rcases hs : parseDiffBlockStart content pos with _ | ⟨i, a⟩
        · rcases ih (pos + 1) (by omega) with hnil | ⟨o, i, junk, bs, s, nlOpt, t,
            ho, hj, hbs, hnlOpt, hdrop⟩
          · left
            rw [parse_start_none hpos hs]
            exact hnil
          · right
            have hcons : content.drop pos
                = content[pos] :: content.drop (pos + 1) :=
              List.drop_eq_getElem_cons hpos
            refine ⟨content[pos] :: o, i, junk, bs, s, nlOpt, t, ?_, hj, hbs, hnlOpt, ?_⟩
            · intro k hk
              cases k with
              | zero => simpa using hs
              | succ k2 =>
                have := ho k2 (by simpa using hk)
                rwa [show pos + 1 + k2 = pos + (k2 + 1) from by omega] at this
            · rw [hcons, hdrop]
              simp
        · rcases he : findEnd content a with _ | e
          · left
            exact parse_end_none hpos hs he
          · right
            obtain ⟨junk, hj, hscase⟩ := parseDiffBlockStart_inv hs
            rcases hscase with ⟨hdropS, haval, halen⟩ | ⟨r, hdropS, haval⟩
            · exfalso
              have : findEnd content a = none := findEnd_oob (by omega)
              rw [this] at he
              cases he
            · have hr : content.drop a = r := by
                have hd2 : content.drop pos
                    = (List.replicate i ' ' ++ "```diff".data ++ junk ++ ['\n']) ++ r := by
                  rw [hdropS]
                  simp
                have hlen2 : (List.replicate i ' ' ++ "```diff".data ++ junk ++ ['\n']).length
                    = i + 7 + junk.length + 1 := by
                  simp
                  omega
                have : a = pos + (List.replicate i ' ' ++ "```diff".data ++ junk ++ ['\n']).length := by
                  rw [hlen2]
                  omega
                rw [this, drop_of_drop_eq hd2, List.drop_left]
              obtain ⟨bs, s, rem, hbs, hdropA, hbr⟩ := findEnd_inv he
              rcases hbr with ⟨hrem, heval, helen⟩ | ⟨r2, hrem, heval⟩
              · refine ⟨[], i, junk, bs, s, [], [], by simp, hj, hbs, Or.inr ⟨rfl, rfl⟩, ?_⟩
                rw [hdropS]
                rw [hr] at hdropA
                rw [hdropA, hrem]
                simp
              · refine ⟨[], i, junk, bs, s, ['\n'], r2, by simp, hj, hbs, Or.inl rfl, ?_⟩
                rw [hdropS]
                rw [hr] at hdropA
                rw [hdropA, hrem]
                simp
      · left
        exact parse_oob hpos
  intro pos
  exact H (content.length - pos) pos (le_refl _)

theorem formatMarkdown_eq_foldr (md : List Char) :
    formatMarkdown md
      = (parse md 0).foldr (fun b result => spliceBlock md result b) md := by
  unfold formatMarkdown
  by_cases h : (parse md 0).length = 0
  · rw [if_pos h, List.length_eq_zero.mp h]
    rfl
  · rw [if_neg h]

theorem spliceBlock_shift (md t R : List Char) (delta : Nat)
    (hdrop : md.drop delta = t) (hle : delta ≤ md.length) (b : Block) :
    spliceBlock md (md.take delta ++ R) (blockShift delta b)
      = md.take delta ++ spliceBlock t R b := by
  have htlen : (md.take delta).length = delta := by
    rw [List.length_take]
    omega
  unfold spliceBlock blockShift
  dsimp only
  have h1 : (md.take delta ++ R).take (delta + b.contentStartPos)
      = md.take delta ++ R.take b.contentStartPos := by
    rw [show delta + b.contentStartPos = (md.take delta).length + b.contentStartPos
      from by rw [htlen]]
    exact List.take_append _
  have h2 : (md.take delta ++ R).drop (delta + b.contentEndPos)
      = R.drop b.contentEndPos := by
    rw [show delta + b.contentEndPos = (md.take delta).length + b.contentEndPos
      from by rw [htlen]]
    rw [List.drop_append]
  have h3 : (md.drop (delta + b.contentStartPos)).take
        (delta + b.contentEndPos - (delta + b.contentStartPos))
      = (t.drop b.contentStartPos).take
          (b.contentEndPos - b.contentStartPos) := by
    rw [drop_of_drop_eq hdrop, show delta + b.contentEndPos
      - (delta + b.contentStartPos) = b.contentEndPos - b.contentStartPos
      from by omega]
  rw [h1, h2, h3]
  simp

theorem foldr_splice_shift (md t : List Char) (delta : Nat)
    (hdrop : md.drop delta = t) (hle : delta ≤ md.length) (bs : List Block) :
    (bs.map (blockShift delta)).foldr (fun b result => spliceBlock md result b) md
      = md.take delta ++ bs.foldr (fun b result => spliceBlock t result b) t := by
  induction bs with
  | nil =>
    simp only [List.map_nil, List.foldr_nil]
    rw [← hdrop]
    exact (List.take_append_drop delta md).symm
  | cons b bs ih =>
    simp only [List.map_cons, List.foldr_cons, ih]
    exact spliceBlock_shift md t _ delta hdrop hle b

theorem formatMarkdown_block {md o : List Char} {i : Nat}
    {junk : List Char} {bs : List (List Char)} {s : Nat} {nlOpt t : List Char}
    (ho : ∀ k, k < o.length → parseDiffBlockStart md k = none)
    (hj : '\n' ∉ junk)
    (hbs : ∀ b ∈ bs, '\n' ∉ b ∧ lineClose b = false)
    (hnl : nlOpt = ['\n'] ∨ (nlOpt = [] ∧ t = []))
    (hd : md = o ++ (List.replicate i ' ' ++ "```diff".data ++ junk ++ ['\n'])
        ++ rawLines bs ++ (List.replicate s ' ' ++ "```".data ++ nlOpt) ++ t) :
    formatMarkdown md
      = o ++ (List.replicate i ' ' ++ "```diff".data ++ junk ++ ['\n'])
        ++ formatDiffBlock (rawLines bs) i
        ++ (List.replicate s ' ' ++ "```".data ++ nlOpt) ++ formatMarkdown t := by
  have hflen : (List.replicate i ' ' ++ "```diff".data ++ junk ++ ['\n']).length
      = i + 7 + junk.length + 1 := by
    simp
    omega
  have hcllen : (List.replicate s ' ' ++ "```".data ++ nlOpt).length
      = s + 3 + nlOpt.length := by
    simp
    omega
  have hd0 : md.drop 0 = o ++ (List.replicate i ' ' ++ "```diff".data ++ junk ++ ['\n'])
      ++ rawLines bs ++ (List.replicate s ' ' ++ "```".data ++ nlOpt) ++ t := by
    rw [List.drop_zero]
    exact hd
  have ho0 : ∀ k, k < o.length → parseDiffBlockStart md (0 + k) = none := by
    intro k hk
    rw [Nat.zero_add]
    exact ho k hk
  have hparse := parse_block ho0 hj hbs hnl hd0
  have htail := decomp_drop_tail hd0
  simp only [Nat.zero_add] at hparse htail
  have hDle : o.length + (i + 7 + junk.length + 1) + (rawLines bs).length
      + (s + 3 + nlOpt.length) ≤ md.length := by
    rw [hd]
    simp
    omega
  have htailshift : parse md (o.length + (i + 7 + junk.length + 1)
        + (rawLines bs).length + (s + 3 + nlOpt.length))
      = (parse t 0).map (blockShift (o.length + (i + 7 + junk.length + 1)
        + (rawLines bs).length + (s + 3 + nlOpt.length))) := by
    have h1 := parse_shift md (o.length + (i + 7 + junk.length + 1)
        + (rawLines bs).length + (s + 3 + nlOpt.length)) 0
    rw [Nat.add_zero, htail] at h1
    exact h1
  rw [formatMarkdown_eq_foldr, hparse, htailshift, List.foldr_cons,
    foldr_splice_shift md t _ htail hDle (parse t 0), ← formatMarkdown_eq_foldr]
  have hDlen : (md.take (o.length + (i + 7 + junk.length + 1) + (rawLines bs).length
      + (s + 3 + nlOpt.length))).length
      = o.length + (i + 7 + junk.length + 1) + (rawLines bs).length
        + (s + 3 + nlOpt.length) := by
    rw [List.length_take]
    omega
  have hre1 : md = (o ++ (List.replicate i ' ' ++ "```diff".data ++ junk ++ ['\n']))
      ++ (rawLines bs ++ ((List.replicate s ' ' ++ "```".data ++ nlOpt) ++ t)) := by
    rw [hd]
    simp
  have hre2 : md = ((o ++ (List.replicate i ' ' ++ "```diff".data ++ junk ++ ['\n']))
      ++ rawLines bs) ++ ((List.replicate s ' ' ++ "```".data ++ nlOpt) ++ t) := by
    rw [hd]
    simp
  have hoflen : (o ++ (List.replicate i ' ' ++ "```diff".data ++ junk ++ ['\n'])).length
      = o.length + (i + 7 + junk.length + 1) := by
    rw [List.length_append, hflen]
  have htakeA : md.take (o.length + (i + 7 + junk.length + 1))
      = o ++ (List.replicate i ' ' ++ "```diff".data ++ junk ++ ['\n']) := by
    conv_lhs => rw [hre1]
    rw [← hoflen, List.take_left]
  have hdropA : md.drop (o.length + (i + 7 + junk.length + 1))
      = rawLines bs ++ ((List.replicate s ' ' ++ "```".data ++ nlOpt) ++ t) := by
    conv_lhs => rw [hre1]
    rw [← hoflen, List.drop_left]
  have hdropE : md.drop (o.length + (i + 7 + junk.length + 1) + (rawLines bs).length)
      = (List.replicate s ' ' ++ "```".data ++ nlOpt) ++ t := by
    conv_lhs => rw [hre2]
    rw [show o.length + (i + 7 + junk.length + 1) + (rawLines bs).length
      = ((o ++ (List.replicate i ' ' ++ "```diff".data ++ junk ++ ['\n']))
        ++ rawLines bs).length from by rw [List.length_append, hoflen], List.drop_left]
  unfold spliceBlock
  dsimp only
  have hc1 : (md.take (o.length + (i + 7 + junk.length + 1) + (rawLines bs).length
        + (s + 3 + nlOpt.length)) ++ formatMarkdown t).take
        (o.length + (i + 7 + junk.length + 1))
      = o ++ (List.replicate i ' ' ++ "```diff".data ++ junk ++ ['\n']) := by
    rw [List.take_append_eq_append_take, hDlen,
      show o.length + (i + 7 + junk.length + 1)
        - (o.length + (i + 7 + junk.length + 1) + (rawLines bs).length
          + (s + 3 + nlOpt.length)) = 0 from by omega,
      List.take_zero, List.append_nil, List.take_take,
      show min (o.length + (i + 7 + junk.length + 1))
        (o.length + (i + 7 + junk.length + 1) + (rawLines bs).length
          + (s + 3 + nlOpt.length)) = o.length + (i + 7 + junk.length + 1)
        from by omega, htakeA]
  have hc2 : (md.drop (o.length + (i + 7 + junk.length + 1))).take
        (o.length + (i + 7 + junk.length + 1) + (rawLines bs).length
          - (o.length + (i + 7 + junk.length + 1)))
      = rawLines bs := by
    rw [show o.length + (i + 7 + junk.length + 1) + (rawLines bs).length
        - (o.length + (i + 7 + junk.length + 1)) = (rawLines bs).length
        from by omega, hdropA, List.take_append_eq_append_take,
      Nat.sub_self, List.take_zero, List.append_nil, List.take_length]
  have hc3 : (md.take (o.length + (i + 7 + junk.length + 1) + (rawLines bs).length
        + (s + 3 + nlOpt.length)) ++ formatMarkdown t).drop
        (o.length + (i + 7 + junk.length + 1) + (rawLines bs).length)
      = (List.replicate s ' ' ++ "```".data ++ nlOpt) ++ formatMarkdown t := by
    rw [List.drop_append_eq_append_drop, hDlen,
      show o.length + (i + 7 + junk.length + 1) + (rawLines bs).length
        - (o.length + (i + 7 + junk.length + 1) + (rawLines bs).length
          + (s + 3 + nlOpt.length)) = 0 from by omega,
      List.drop_zero]
    congr 1
    rw [List.drop_take, hdropE,
      show o.length + (i + 7 + junk.length + 1) + (rawLines bs).length
        + (s + 3 + nlOpt.length)
        - (o.length + (i + 7 + junk.length + 1) + (rawLines bs).length)
        = s + 3 + nlOpt.length from by omega,
      List.take_append_eq_append_take, hcllen, Nat.sub_self, List.take_zero,
      List.append_nil, ← hcllen, List.take_length]
  rw [hc1, hc2, hc3]
  simp

theorem dropSpacesUpTo_eq (n : Nat) (l : List Char) :
    dropSpacesUpTo n l = l.drop (min n (spacesRun l)) := by
  induction n generalizing l with
  | zero => simp [dropSpacesUpTo]
  | succ n ih =>
    cases l with
    | nil => simp [dropSpacesUpTo]
    | cons c rest =>
      by_cases hc : c = ' '
      · rw [dropSpacesUpTo, if_pos hc, ih]
        have hsp : spacesRun (c :: rest) = spacesRun rest + 1 := by
          simp [spacesRun, List.takeWhile_cons, hc]
        rw [hsp]
        have : min (n + 1) (spacesRun rest + 1) = min n (spacesRun rest) + 1 := by
          omega
        rw [this, List.drop_succ_cons]
      · rw [dropSpacesUpTo, if_neg hc]
        have hsp : spacesRun (c :: rest) = 0 := by
          simp [spacesRun, List.takeWhile_cons, hc]
        rw [hsp]
        simp

theorem formatLine_no_nl {i : Nat} {l : List Char} (h : '\n' ∉ l) :
    '\n' ∉ formatLine i l := by
  cases l with
  | nil => simp [formatLine]
  | cons c rest =>
    rw [formatLine]
    split
    · intro hmem
      rcases List.mem_append.mp hmem with h1 | h1
      · have := List.eq_of_mem_replicate h1
        cases this
      · rcases List.mem_cons.mp h1 with h2 | h2
        · rename_i hc
          rcases hc with hc | hc <;> rw [hc] at h2 <;> cases h2
        · rw [dropSpacesUpTo_eq] at h2
          exact h (List.mem_cons_of_mem c (List.mem_of_mem_drop h2))
    · exact h

theorem dropWhile_replicate_append (n : Nat) (l : List Char) :
    (List.replicate n ' ' ++ l).dropWhile (fun ch => ch = ' ')
      = l.dropWhile (fun ch => ch = ' ') := by
  induction n with
  | zero => rfl
  | succ k ih =>
    simp only [List.replicate_succ, List.cons_append, List.dropWhile_cons]
    simpa using ih

theorem lineClose_formatLine (i : Nat) (l : List Char) :
    lineClose (formatLine i l) = lineClose l := by
  cases l with
  | nil => rfl
  | cons c rest =>
    rw [formatLine]
    split
    · rename_i hc
      rw [lineClose, lineClose, dropWhile_replicate_append]
      have hcs : ¬ c = ' ' := by
        rcases hc with hc | hc <;> rw [hc] <;> decide
      rw [List.dropWhile_cons, if_neg (by simpa using hcs),
        List.dropWhile_cons, if_neg (by simpa using hcs)]
      have hhd : ∀ (x y : List Char), (c :: x = "```".data) = (c :: y = "```".data) := by
        intro x y
        have hcb : ¬ c = '`' := by
          rcases hc with hc | hc <;> rw [hc] <;> decide
        apply propext
        constructor
        · intro hx
          exfalso
          apply hcb
          have : (c :: x)[0]? = ("```".data)[0]? := by rw [hx]
          simpa using this
        · intro hy
          exfalso
          apply hcb
          have : (c :: y)[0]? = ("```".data)[0]? := by rw [hy]
          simpa using this
      simp only [decide_eq_decide]
      rw [hhd (dropSpacesUpTo i rest) rest]
    · rfl

theorem formatLine_idem (i : Nat) (l : List Char) :
    formatLine i (formatLine i l) = formatLine i l := by
  cases l with
  | nil => rfl
  | cons c rest =>
    by_cases hc : c = '-' ∨ c = '+'
    · cases i with
      | zero =>
        have h0 : formatLine 0 (c :: rest) = c :: rest := by
          rw [formatLine, if_pos hc]
          simp [dropSpacesUpTo]
        rw [h0, h0]
      | succ k =>
        have h1 : formatLine (k + 1) (c :: rest)
            = ' ' :: (List.replicate k ' ' ++ c :: dropSpacesUpTo (k + 1) rest) := by
          rw [formatLine, if_pos hc]
          simp [List.replicate_succ]
        rw [h1]
        conv_lhs => rw [formatLine]
        rw [if_neg (by decide : ¬ (' ' = '-' ∨ ' ' = '+'))]
    · have h0 : formatLine i (c :: rest) = c :: rest := by
        rw [formatLine, if_neg hc]
      rw [h0, h0]

theorem formatDiffBlock_rawLines {bs : List (List Char)} {i : Nat}
    (h : ∀ b ∈ bs, '\n' ∉ b) :
    formatDiffBlock (rawLines bs) i = rawLines (bs.map (formatLine i)) := by
  unfold formatDiffBlock
  have h1 : splitNl (rawLines bs) = bs ++ [[]] := by
    have := splitNl_rawLines_append [] h
    rwa [List.append_nil] at this
  rw [h1, List.map_append]
  have h2 : ([[]] : List (List Char)).map (formatLine i) = [[]] := by
    simp [formatLine]
  rw [h2, joinNl_append_lines]
  simp [joinNl]

theorem spacesRun_le_of_get {l : List Char} {j : Nat} {x : Char}
    (h : l[j]? = some x) (hx : ¬ x = ' ') : spacesRun l ≤ j := by
  induction l generalizing j with
  | nil => cases h
  | cons c rest ih =>
    cases j with
    | zero =>
      have hc : c = x := by simpa using h
      rw [spacesRun_cons_ne rest (hc ▸ hx)]
    | succ j2 =>
      by_cases hc : c = ' '
      · rw [hc, spacesRun_cons_space]
        have := ih (by simpa using h)
        omega
      · rw [spacesRun_cons_ne rest hc]
        omega

theorem spacesRun_append_of_get {l : List Char} {j : Nat} {x : Char} (X : List Char)
    (h : l[j]? = some x) (hx : ¬ x = ' ') : spacesRun (l ++ X) = spacesRun l := by
  induction l generalizing j with
  | nil => cases h
  | cons c rest ih =>
    cases j with
    | zero =>
      have hc : c = x := by simpa using h
      rw [List.cons_append, spacesRun_cons_ne _ (hc ▸ hx),
        spacesRun_cons_ne rest (hc ▸ hx)]
    | succ j2 =>
      by_cases hc : c = ' '
      · rw [List.cons_append, hc, spacesRun_cons_space, spacesRun_cons_space,
          ih (by simpa using h)]
      · rw [List.cons_append, spacesRun_cons_ne _ hc, spacesRun_cons_ne rest hc]

theorem parseDiffBlockStart_none_congr {P X X' : List Char} {k p0 : Nat} {c0 : Char}
    (hk : k ≤ p0) (hlen : p0 + 7 ≤ P.length)
    (hg : P[p0]? = some c0) (hc0 : ¬ c0 = ' ')
    (hnone : parseDiffBlockStart (P ++ X) k = none) :
    parseDiffBlockStart (P ++ X') k = none := by
  have hkP : k ≤ P.length := by omega
  have hgk : (P.drop k)[p0 - k]? = some c0 := by
    rw [List.getElem?_drop, show k + (p0 - k) = p0 from by omega]
    exact hg
  have hr_le : spacesRun (P.drop k) ≤ p0 - k := spacesRun_le_of_get hgk hc0
  have hdropk : ∀ (Y : List Char), (P ++ Y).drop k = P.drop k ++ Y := by
    intro Y
    rw [List.drop_append_eq_append_drop, show k - P.length = 0 from by omega,
      List.drop_zero]
  have hrun : ∀ (Y : List Char), spacesRun ((P ++ Y).drop k) = spacesRun (P.drop k) := by
    intro Y
    rw [hdropk Y]
    exact spacesRun_append_of_get Y hgk hc0
  have hpeek : ∀ (Y : List Char),
      peekN (P ++ Y) (k + spacesRun (P.drop k)) 7
        = (P.drop (k + spacesRun (P.drop k))).take 7 := by
    intro Y
    unfold peekN
    rw [List.drop_append_eq_append_drop,
      show k + spacesRun (P.drop k) - P.length = 0 from by omega,
      List.drop_zero, List.take_append_eq_append_take,
      show 7 - (P.drop (k + spacesRun (P.drop k))).length = 0 from by
        rw [List.length_drop]
        omega,
      List.take_zero, List.append_nil]
  unfold parseDiffBlockStart at hnone ⊢
  dsimp only at hnone ⊢
  rw [hrun X', hpeek X']
  rw [hrun X, hpeek X] at hnone
  by_cases hcond : (P.drop (k + spacesRun (P.drop k))).take 7 = "```diff".data
  · rw [if_pos hcond] at hnone
    cases hnone
  · rw [if_neg hcond]

theorem formatMarkdown_noblocks {md : List Char} (h : parse md 0 = []) :
    formatMarkdown md = md := by
  unfold formatMarkdown
  rw [h]
  simp

theorem fence_head_tick (o junk : List Char) (i : Nat) :
    (o ++ (List.replicate i ' ' ++ "```diff".data ++ junk ++ ['\n']))[o.length + i]?
      = some '`' := by
  rw [List.getElem?_append_right (by omega),
    show o.length + i - o.length = i from by omega]
  have h1 : List.replicate i ' ' ++ "```diff".data ++ junk ++ ['\n']
      = (List.replicate i ' ' ++ "```diff".data) ++ (junk ++ ['\n']) := by simp
  rw [h1, List.getElem?_append, if_pos (by simp),
    List.getElem?_append_right (by simp), List.length_replicate, Nat.sub_self]
  rfl

theorem formatMarkdown_idem (md : List Char) :
    formatMarkdown (formatMarkdown md) = formatMarkdown md := by
  have H : ∀ (n : Nat) (md : List Char), md.length ≤ n →
      formatMarkdown (formatMarkdown md) = formatMarkdown md := by
    intro n
    induction n with
    | zero =>
      intro md hlen
      have hnil : md = [] := List.eq_nil_of_length_eq_zero (by omega)
      subst hnil
      have h0 : formatMarkdown ([] : List Char) = [] :=
        formatMarkdown_noblocks (parse_oob (by simp))
      rw [h0, h0]
    | succ n ih =>
      intro md hlen
      rcases parse_cases md 0 with hnil
        | ⟨o, i, junk, bs, s, nlOpt, t, ho, hj, hbs, hnlOpt, hdrop⟩
      · rw [formatMarkdown_noblocks hnil, formatMarkdown_noblocks hnil]
      · rw [List.drop_zero] at hdrop
        have ho' : ∀ k, k < o.length → parseDiffBlockStart md k = none := by
          intro k hk
          have := ho k hk
          rwa [Nat.zero_add] at this
        have hbsnl : ∀ b ∈ bs, '\n' ∉ b := fun b hb => (hbs b hb).1
        have hfmt1 := formatMarkdown_block ho' hj hbs hnlOpt hdrop
        rw [formatDiffBlock_rawLines hbsnl] at hfmt1
        have hbs2 : ∀ b ∈ bs.map (formatLine i), '\n' ∉ b ∧ lineClose b = false := by
          intro b hb
          obtain ⟨b0, hb0, hb0eq⟩ := List.mem_map.mp hb
          subst hb0eq
          refine ⟨formatLine_no_nl (hbs b0 hb0).1, ?_⟩
          rw [lineClose_formatLine]
          exact (hbs b0 hb0).2
        have htlen : t.length ≤ n := by
          have hmdlen : md.length = o.length + (i + 7 + junk.length + 1)
              + (rawLines bs).length + (s + 3 + nlOpt.length) + t.length := by
            rw [hdrop]
            simp
            omega
          omega
        have hnlOpt2 : nlOpt = ['\n'] ∨ (nlOpt = [] ∧ formatMarkdown t = []) := by
          rcases hnlOpt with h1 | ⟨h1, h2⟩
          · exact Or.inl h1
          · subst h2
            exact Or.inr ⟨h1, formatMarkdown_noblocks (parse_oob (by simp))⟩
        have ho2 : ∀ k, k < o.length →
            parseDiffBlockStart
              (o ++ (List.replicate i ' ' ++ "```diff".data ++ junk ++ ['\n'])
                ++ rawLines (bs.map (formatLine i))
                ++ (List.replicate s ' ' ++ "```".data ++ nlOpt)
                ++ formatMarkdown t) k = none := by
          intro k hk
          have hre : o ++ (List.replicate i ' ' ++ "```diff".data ++ junk ++ ['\n'])
              ++ rawLines (bs.map (formatLine i))
              ++ (List.replicate s ' ' ++ "```".data ++ nlOpt)
              ++ formatMarkdown t
              = (o ++ (List.replicate i ' ' ++ "```diff".data ++ junk ++ ['\n']))
                ++ (rawLines (bs.map (formatLine i))
                  ++ ((List.replicate s ' ' ++ "```".data ++ nlOpt)
                    ++ formatMarkdown t)) := by
            simp
          have hre0 : md = (o ++ (List.replicate i ' ' ++ "```diff".data
              ++ junk ++ ['\n']))
              ++ (rawLines bs
                ++ ((List.replicate s ' ' ++ "```".data ++ nlOpt) ++ t)) := by
            rw [hdrop]
            simp
          have hnone := ho' k hk
          rw [hre0] at hnone
          rw [hre]
          exact parseDiffBlockStart_none_congr
            (by omega) (by simp; omega) (fence_head_tick o junk i) (by decide) hnone
        rw [hfmt1]
        have hfmt2 := formatMarkdown_block ho2 hj hbs2 hnlOpt2 rfl
        rw [hfmt2, formatDiffBlock_rawLines (fun b hb => (hbs2 b hb).1)]
        have hmapidem : (bs.map (formatLine i)).map (formatLine i)
            = bs.map (formatLine i) := by
          rw [List.map_map]
          apply List.map_congr_left
          intro b _
          exact formatLine_idem i b
        rw [hmapidem, ih t htlen]
  exact H md.length md (le_refl _)

theorem splitNl_nl_append (a b : List Char) :
    splitNl (a ++ '\n' :: b) = splitNl a ++ splitNl b := by
  induction a with
  | nil =>
    show splitNl ('\n' :: b) = splitNl [] ++ splitNl b
    rw [splitNl]
    simp [splitNl]
  | cons c a2 ih =>
    by_cases hc : c = '\n'
    · subst hc
      show splitNl ('\n' :: (a2 ++ '\n' :: b)) = splitNl ('\n' :: a2) ++ splitNl b
      rw [splitNl, if_pos rfl, ih]
      conv_rhs => rw [splitNl, if_pos rfl]
      rfl
    · obtain ⟨a0, as, ha⟩ : ∃ a0 as, splitNl a2 = a0 :: as := by
        cases h2 : splitNl a2 with
        | nil => exact absurd h2 (splitNl_ne_nil a2)
        | cons x xs => exact ⟨x, xs, rfl⟩
      show splitNl (c :: (a2 ++ '\n' :: b)) = splitNl (c :: a2) ++ splitNl b
      rw [splitNl, if_neg hc, ih, ha]
      conv_rhs => rw [splitNl, if_neg hc, ha]
      simp

theorem count_nl_rawLines {bs : List (List Char)} (h : ∀ b ∈ bs, '\n' ∉ b) :
    (rawLines bs).count '\n' = bs.length := by
  induction bs with
  | nil => rfl
  | cons b bs ih =>
    rw [rawLines_cons, List.count_append, List.count_cons,
      List.count_eq_zero_of_not_mem (h b (List.mem_cons_self b bs)),
      ih (fun x hx => h x (List.mem_cons_of_mem b hx))]
    simp

theorem formatMarkdownA_countNl (md : List Char) :
    (formatMarkdown md).count '\n' = md.count '\n' := by
  have H : ∀ (n : Nat) (md : List Char), md.length ≤ n →
      (formatMarkdown md).count '\n' = md.count '\n' := by
    intro n
    induction n with
    | zero =>
      intro md hlen
      have hnil : md = [] := List.eq_nil_of_length_eq_zero (by omega)
      subst hnil
      rw [formatMarkdown_noblocks (parse_oob (by simp))]
    | succ n ih =>
      intro md hlen
      rcases parse_cases md 0 with hnil
        | ⟨o, i, junk, bs, s, nlOpt, t, ho, hj, hbs, hnlOpt, hdrop⟩
      · rw [formatMarkdown_noblocks hnil]
      · rw [List.drop_zero] at hdrop
        have ho' : ∀ k, k < o.length → parseDiffBlockStart md k = none := by
          intro k hk
          have := ho k hk
          rwa [Nat.zero_add] at this
        have hbsnl : ∀ b ∈ bs, '\n' ∉ b := fun b hb => (hbs b hb).1
        have hfmt1 := formatMarkdown_block ho' hj hbs hnlOpt hdrop
        rw [formatDiffBlock_rawLines hbsnl] at hfmt1
        have htlen : t.length ≤ n := by
          have hmdlen : md.length = o.length + (i + 7 + junk.length + 1)
              + (rawLines bs).length + (s + 3 + nlOpt.length) + t.length := by
            rw [hdrop]
            simp
            omega
          omega
        have hmapnl : ∀ b ∈ bs.map (formatLine i), '\n' ∉ b := by
          intro b hb
          obtain ⟨b0, hb0, hb0eq⟩ := List.mem_map.mp hb
          subst hb0eq
          exact formatLine_no_nl (hbsnl b0 hb0)
        rw [hfmt1]
        conv_rhs => rw [hdrop]
        simp only [List.count_append]
        rw [count_nl_rawLines hbsnl, count_nl_rawLines hmapnl, List.length_map,
          ih t htlen]
  exact H md.length md (le_refl _)

theorem rawLines_nil_or_ends_nl (bs : List (List Char)) :
    rawLines bs = [] ∨ ∃ Z, rawLines bs = Z ++ ['\n'] := by
  induction bs with
  | nil => exact Or.inl rfl
  | cons b bs ih =>
    right
    rw [rawLines_cons]
    rcases ih with h0 | ⟨Z, hZ⟩
    · exact ⟨b, by rw [h0]⟩
    · exact ⟨b ++ '\n' :: Z, by rw [hZ]; simp⟩

theorem close_mem_of_tail {s : Nat} {nlOpt t : List Char}
    (hnl : nlOpt = ['\n'] ∨ (nlOpt = [] ∧ t = [])) :
    (List.replicate s ' ' ++ "```".data)
      ∈ splitNl ((List.replicate s ' ' ++ "```".data ++ nlOpt) ++ t) := by
  rcases hnl with h1 | ⟨h1, h2⟩
  · subst h1
    have hre : (List.replicate s ' ' ++ "```".data ++ ['\n']) ++ t
        = (List.replicate s ' ' ++ "```".data) ++ '\n' :: t := by
      simp
    rw [hre, splitNl_nl_append, splitNl_of_no_nl (nl_not_mem_fence s)]
    simp
  · subst h1
    subst h2
    rw [List.append_nil, List.append_nil, splitNl_of_no_nl (nl_not_mem_fence s)]
    simp

theorem close_mem_splitNl {md o junk : List Char} {i s : Nat}
    {bs : List (List Char)} {nlOpt t : List Char}
    (hnl : nlOpt = ['\n'] ∨ (nlOpt = [] ∧ t = []))
    (hd : md = o ++ (List.replicate i ' ' ++ "```diff".data ++ junk ++ ['\n'])
        ++ rawLines bs ++ (List.replicate s ' ' ++ "```".data ++ nlOpt) ++ t) :
    (List.replicate s ' ' ++ "```".data) ∈ splitNl md := by
  rcases rawLines_nil_or_ends_nl bs with h0 | ⟨Z, hZ⟩
  · have hre : md = (o ++ (List.replicate i ' ' ++ "```diff".data ++ junk))
        ++ '\n' :: ((List.replicate s ' ' ++ "```".data ++ nlOpt) ++ t) := by
      rw [hd, h0]
      simp
    rw [hre, splitNl_nl_append]
    exact List.mem_append_right _ (close_mem_of_tail hnl)
  · have hre : md = (o ++ (List.replicate i ' ' ++ "```diff".data ++ junk
        ++ ['\n']) ++ Z)
        ++ '\n' :: ((List.replicate s ' ' ++ "```".data ++ nlOpt) ++ t) := by
      rw [hd, hZ]
      simp
    rw [hre, splitNl_nl_append]
    exact List.mem_append_right _ (close_mem_of_tail hnl)

theorem parse_nil_of_noclose {md : List Char}
    (h : ∀ l ∈ splitNl md, lineClose l = false) :
    parse md 0 = [] := by
  rcases parse_cases md 0 with hnil
    | ⟨o, i, junk, bs, s, nlOpt, t, ho, hj, hbs, hnlOpt, hdrop⟩
  · exact hnil
  · exfalso
    rw [List.drop_zero] at hdrop
    have hmem := close_mem_splitNl hnlOpt hdrop
    have := h _ hmem
    rw [lineClose_fence s] at this
    cases this

/-- A segmentation of a document under the character scanner: plain text
chunks and diff blocks.  A block segment records the open-fence indent,
the junk after the opening fence, the body lines, and the closing-fence
indent and optional trailing newline. -/
inductive SegA where
  | txt (chunk : List Char)
  | blk (i : Nat) (junk : List Char) (bs : List (List Char)) (s : Nat)
      (nlOpt : List Char)

/-- The characters a segment covers in the input. -/
def SegA.src : SegA → List Char
  | .txt chunk => chunk
  | .blk i junk bs s nlOpt =>
      (List.replicate i ' ' ++ "```diff".data ++ junk ++ ['\n'])
        ++ rawLines bs ++ (List.replicate s ' ' ++ "```".data ++ nlOpt)

/-- The characters a segment contributes to the output: fences and text
verbatim, body lines rewritten by formatLine. -/
def SegA.out : SegA → List Char
  | .txt chunk => chunk
  | .blk i junk bs s nlOpt =>
      (List.replicate i ' ' ++ "```diff".data ++ junk ++ ['\n'])
        ++ rawLines (bs.map (formatLine i))
        ++ (List.replicate s ' ' ++ "```".data ++ nlOpt)

theorem formatMarkdownA_segments (md : List Char) :
    ∃ segs : List SegA,
      (segs.map SegA.src).flatten = md ∧
      (segs.map SegA.out).flatten = formatMarkdown md := by
  have H : ∀ (n : Nat) (md : List Char), md.length ≤ n →
      ∃ segs : List SegA,
        (segs.map SegA.src).flatten = md ∧
        (segs.map SegA.out).flatten = formatMarkdown md := by
    intro n
    induction n with
    | zero =>
      intro md hlen
      have hnil : md = [] := List.eq_nil_of_length_eq_zero (by omega)
      subst hnil
      refine ⟨[], by simp, ?_⟩
      rw [formatMarkdown_noblocks (parse_oob (by simp))]
      simp
    | succ n ih =>
      intro md hlen
      rcases parse_cases md 0 with hnil
        | ⟨o, i, junk, bs, s, nlOpt, t, ho, hj, hbs, hnlOpt, hdrop⟩
      · refine ⟨[SegA.txt md], by simp [SegA.src], ?_⟩
        rw [formatMarkdown_noblocks hnil]
        simp [SegA.out]
      · rw [List.drop_zero] at hdrop
        have ho' : ∀ k, k < o.length → parseDiffBlockStart md k = none := by
          intro k hk
          have := ho k hk
          rwa [Nat.zero_add] at this
        have hbsnl : ∀ b ∈ bs, '\n' ∉ b := fun b hb => (hbs b hb).1
        have hfmt1 := formatMarkdown_block ho' hj hbs hnlOpt hdrop
        rw [formatDiffBlock_rawLines hbsnl] at hfmt1
        have htlen : t.length ≤ n := by
          have hmdlen : md.length = o.length + (i + 7 + junk.length + 1)
              + (rawLines bs).length + (s + 3 + nlOpt.length) + t.length := by
            rw [hdrop]
            simp
            omega
          omega
        obtain ⟨segs, hsrc, hout⟩ := ih t htlen
        refine ⟨SegA.txt o :: SegA.blk i junk bs s nlOpt :: segs, ?_, ?_⟩
        · simp only [List.map_cons, List.flatten_cons, SegA.src, hsrc]
          rw [hdrop]
          simp
        · simp only [List.map_cons, List.flatten_cons, SegA.out, hout]
          rw [hfmt1]
          simp
  exact H md.length md (le_refl _)

theorem formatDiffBlock_single_marker {rest : List Char} (n : Nat)
    (h : '\n' ∉ rest) :
    formatDiffBlock ('-' :: rest) n
      = List.replicate n ' ' ++ '-' :: rest.drop (min n (spacesRun rest)) := by
  unfold formatDiffBlock
  have hnl : '\n' ∉ ('-' :: rest) := by
    intro hmem
    rcases List.mem_cons.mp hmem with h1 | h1
    · cases h1
    · exact h h1
  rw [splitNl_of_no_nl hnl, List.map_cons, List.map_nil]
  show formatLine n ('-' :: rest)
    = List.replicate n ' ' ++ '-' :: rest.drop (min n (spacesRun rest))
  rw [formatLine, if_pos (Or.inl rfl), dropSpacesUpTo_eq]

theorem c5_eval :
    formatMarkdown ("  ```diff\n- old\n+ new\n  ```\n".data)
      = ("  ```diff\n  -old\n  +new\n  ```\n").data := by
  have hd : ("  ```diff\n- old\n+ new\n  ```\n".data : List Char)
      = [] ++ (List.replicate 2 ' ' ++ "```diff".data ++ [] ++ ['\n'])
        ++ rawLines ["- old".data, "+ new".data]
        ++ (List.replicate 2 ' ' ++ "```".data ++ ['\n']) ++ [] := by decide
  have hfmt := formatMarkdown_block
    (fun k hk => absurd hk (by simp)) (by decide) (by decide) (Or.inl rfl) hd
  rw [hfmt, formatDiffBlock_rawLines (by decide),
    formatMarkdown_noblocks (parse_oob (by simp))]
  decide

end FormatDiff

namespace FormatDiffB

theorem matchOpen_trailing {junk : List Char} (a : Nat) (hj : junk ≠ []) :
    matchOpen (List.replicate a ' ' ++ "```diff".data ++ junk) = none := by
  unfold matchOpen
  dsimp only
  have hassoc : List.replicate a ' ' ++ "```diff".data ++ junk
      = List.replicate a ' ' ++ ("```diff".data ++ junk) := by simp
  rw [hassoc, takeWhile_ws_replicate]
  have h1 : ("```diff".data ++ junk).takeWhile isJsWhitespace = [] := by
    show (('`' :: ("``diff".data ++ junk)).takeWhile isJsWhitespace) = []
    rw [List.takeWhile_cons, if_neg (by decide)]
  rw [h1, List.append_nil, List.length_replicate,
    List.drop_left' (List.length_replicate a ' ')]
  rw [if_neg]
  intro hcontra
  have hlen := congrArg List.length hcontra
  simp at hlen
  exact hj hlen

end FormatDiffB

namespace FormatDiff

theorem parse_unterminated {md : List Char} {pos i a : Nat}
    (hs : parseDiffBlockStart md pos = some (i, a))
    (he : findEnd md a = none) : parse md pos = [] := by
  have hpos : pos < md.length := by
    by_contra hnp
    have hnone : parseDiffBlockStart md pos = none := by
      unfold parseDiffBlockStart
      dsimp only
      have hpk : peekN md (pos + spacesRun (md.drop pos)) 7 = [] := by
        unfold peekN
        have hd2 : md.drop (pos + spacesRun (md.drop pos)) = [] := by
          rw [List.drop_eq_nil_iff]
          omega
        rw [hd2]
        rfl
      rw [hpk, if_neg (by decide)]
    rw [hnone] at hs
    cases hs
  exact parse_end_none hpos hs he

theorem c9_findEnd_eval : findEnd ("```diff\nx".data) 8 = none := by
  conv_lhs => rw [findEnd]
  rw [dif_pos (by decide : (8 : Nat) < ("```diff\nx".data).length)]
  have hend : parseDiffBlockEnd ("```diff\nx".data) 8 = none := by decide
  rw [hend]
  show findEnd ("```diff\nx".data) (skipToNewline ("```diff\nx".data) 8) = none
  have hskip : skipToNewline ("```diff\nx".data) 8 = 9 := by decide
  rw [hskip]
  exact findEnd_oob (by decide)

end FormatDiff

namespace FormatDiffB

theorem findAux_open_noclose {l : List Char} {ls : List (List Char)} {ind : Nat}
    (hm : matchOpen l = some ind)
    (hnc : ∀ x ∈ ls, matchClose x = false) (j : Nat) :
    findAux (l :: ls) j none = [] := by
  simp only [findAux, hm]
  exact findAux_noclose hnc (j + 1) _

end FormatDiffB

/-- Claim C1: under the whole-block formatter, diff header lines are
excluded from the minimum-code-indent computation; however they are not
passed through unchanged: a non-blank header line receives the same
pad of spaces as every other non-blank body line. -/
theorem claim_C1 (op cl h : List Char) (b1 b2 : List (List Char)) (ind : Nat)
    (hh : FormatDiffB.isDiffHeader h = true) :
    FormatDiffB.calculateMinCodeIndent (op :: (b1 ++ h :: b2) ++ [cl])
      = FormatDiffB.calculateMinCodeIndent (op :: (b1 ++ b2) ++ [cl])
    ∧ ((FormatDiffB.jsTrim h).length ≠ 0 →
        FormatDiffB.formatDiffBlock (op :: (b1 ++ h :: b2) ++ [cl]) ind
          = op :: (b1.map (FormatDiffB.padLine
                (ind - FormatDiffB.calculateMinCodeIndent (op :: (b1 ++ b2) ++ [cl])))
              ++ (List.replicate
                  (ind - FormatDiffB.calculateMinCodeIndent (op :: (b1 ++ b2) ++ [cl]))
                  ' ' ++ h)
              :: b2.map (FormatDiffB.padLine
                (ind - FormatDiffB.calculateMinCodeIndent (op :: (b1 ++ b2) ++ [cl]))))
            ++ [cl]) := by
  have hmin : FormatDiffB.calculateMinCodeIndent (op :: (b1 ++ h :: b2) ++ [cl])
      = FormatDiffB.calculateMinCodeIndent (op :: (b1 ++ b2) ++ [cl]) := by
    rw [FormatDiffB.calculateMinCodeIndent_surgery,
      FormatDiffB.calculateMinCodeIndent_surgery,
      FormatDiffB.minFold_insert_skip b1 b2 (Or.inr hh)]
  refine ⟨hmin, fun hnb => ?_⟩
  rw [FormatDiffB.formatDiffBlock_padLine, hmin, List.map_append, List.map_cons]
  rw [show FormatDiffB.padLine
      (ind - FormatDiffB.calculateMinCodeIndent (op :: (b1 ++ b2) ++ [cl])) h
    = List.replicate
        (ind - FormatDiffB.calculateMinCodeIndent (op :: (b1 ++ b2) ++ [cl])) ' ' ++ h
    from by unfold FormatDiffB.padLine; rw [if_neg hnb]]

theorem claim_C1_witness :
    FormatDiffB.isDiffHeader ("--- a/f".data) = true
    ∧ (FormatDiffB.jsTrim ("--- a/f".data)).length ≠ 0
    ∧ FormatDiffB.calculateMinCodeIndent
        ("```diff".data :: (["x".data] ++ "--- a/f".data :: []) ++ ["```".data])
      = FormatDiffB.calculateMinCodeIndent
        ("```diff".data :: (["x".data] ++ []) ++ ["```".data])
    ∧ FormatDiffB.formatDiffBlock
        ("```diff".data :: (["x".data] ++ "--- a/f".data :: []) ++ ["```".data]) 2
      = "```diff".data :: (["x".data].map (FormatDiffB.padLine
            (2 - FormatDiffB.calculateMinCodeIndent
              ("```diff".data :: (["x".data] ++ []) ++ ["```".data])))
          ++ (List.replicate
              (2 - FormatDiffB.calculateMinCodeIndent
                ("```diff".data :: (["x".data] ++ []) ++ ["```".data])) ' '
              ++ "--- a/f".data)
          :: ([] : List (List Char)).map (FormatDiffB.padLine
            (2 - FormatDiffB.calculateMinCodeIndent
              ("```diff".data :: (["x".data] ++ []) ++ ["```".data]))))
        ++ ["```".data] := by
  refine ⟨by decide, by decide, ?_, ?_⟩
  · exact (claim_C1 "```diff".data "```".data "--- a/f".data ["x".data] [] 2
      (by decide)).1
  · exact (claim_C1 "```diff".data "```".data "--- a/f".data ["x".data] [] 2
      (by decide)).2 (by decide)

theorem claim_C1_counterexample :
    FormatDiffB.formatMarkdown ("  ```diff\n--- a/f\nx\n  ```".data)
      = ("  ```diff\n  --- a/f\n  x\n  ```".data) := by decide

/-- Claim C2: the character-based implementation is idempotent on every
document; the line-based implementation is idempotent on documents in
which every found block has a non-blank non-header body line. -/
theorem claim_C2 (md : List Char) :
    FormatDiff.formatMarkdown (FormatDiff.formatMarkdown md)
      = FormatDiff.formatMarkdown md
    ∧ ((∀ blk ∈ FormatDiffB.findDiffBlocks md, ∃ l ∈ FormatDiffB.blockBody blk,
          (FormatDiffB.jsTrim l).length ≠ 0 ∧ FormatDiffB.isDiffHeader l = false) →
        FormatDiffB.formatMarkdown (FormatDiffB.formatMarkdown md)
          = FormatDiffB.formatMarkdown md) :=
  ⟨FormatDiff.formatMarkdown_idem md, fun h => FormatDiffB.formatMarkdownB_idem md h⟩

theorem claim_C2_witness :
    (∀ blk ∈ FormatDiffB.findDiffBlocks ("```diff\n- a\n```".data),
      ∃ l ∈ FormatDiffB.blockBody blk,
        (FormatDiffB.jsTrim l).length ≠ 0 ∧ FormatDiffB.isDiffHeader l = false)
    ∧ FormatDiff.formatMarkdown (FormatDiff.formatMarkdown ("```diff\n- a\n```".data))
        = FormatDiff.formatMarkdown ("```diff\n- a\n```".data)
    ∧ FormatDiffB.formatMarkdown (FormatDiffB.formatMarkdown ("```diff\n- a\n```".data))
        = FormatDiffB.formatMarkdown ("```diff\n- a\n```".data) :=
  ⟨by decide, (claim_C2 ("```diff\n- a\n```".data)).1,
    (claim_C2 ("```diff\n- a\n```".data)).2 (by decide)⟩

theorem claim_C2_counterexample :
    FormatDiffB.formatMarkdown
        (FormatDiffB.formatMarkdown ("  ```diff\n--- a/f\n  ```".data))
      ≠ FormatDiffB.formatMarkdown ("  ```diff\n--- a/f\n  ```".data) := by decide

/-- Claim C3: under the changed-line formatter, a line beginning with a
minus or plus marker is rewritten to indentLevel spaces, the marker,
then the remainder with k leading spaces removed, where k is the
minimum of indentLevel and the remainder's leading-space count; when the
remainder has at least indentLevel leading spaces exactly indentLevel
spaces are removed. -/
theorem claim_C3 (i : Nat) (marker : Char) (rest : List Char)
    (h : marker = '-' ∨ marker = '+') :
    FormatDiff.formatLine i (marker :: rest)
      = List.replicate i ' '
        ++ marker :: rest.drop (min i (FormatDiff.spacesRun rest))
    ∧ (i ≤ FormatDiff.spacesRun rest →
        FormatDiff.formatLine i (marker :: rest)
          = List.replicate i ' ' ++ marker :: rest.drop i) := by
  have h1 : FormatDiff.formatLine i (marker :: rest)
      = List.replicate i ' '
        ++ marker :: rest.drop (min i (FormatDiff.spacesRun rest)) := by
    rw [FormatDiff.formatLine, if_pos h, FormatDiff.dropSpacesUpTo_eq]
  refine ⟨h1, fun hle => ?_⟩
  rw [h1, min_eq_left hle]

theorem claim_C3_witness :
    (('-' : Char) = '-' ∨ ('-' : Char) = '+')
    ∧ 2 ≤ FormatDiff.spacesRun ("   x".data)
    ∧ FormatDiff.formatLine 2 ('-' :: "   x".data)
        = List.replicate 2 ' ' ++ '-' :: ("   x".data).drop 2 :=
  ⟨Or.inl rfl, by decide, (claim_C3 2 '-' ("   x".data) (Or.inl rfl)).2 (by decide)⟩

/-- Claim C4: under the changed-line formatter, a line whose first
character is neither a minus nor a plus is returned byte-identical; but
header lines beginning with minus or plus (such as a --- file header)
are rewritten like any other marker line, not passed through. -/
theorem claim_C4 (i : Nat) (l : List Char)
    (h1 : l.head? ≠ some '-') (h2 : l.head? ≠ some '+') :
    FormatDiff.formatLine i l = l := by
  cases l with
  | nil => rfl
  | cons c rest =>
    rw [FormatDiff.formatLine, if_neg]
    rintro (hc | hc)
    · exact h1 (by rw [hc]; rfl)
    · exact h2 (by rw [hc]; rfl)

theorem claim_C4_witness :
    ("@@ -1 +1 @@".data : List Char).head? ≠ some '-'
    ∧ ("@@ -1 +1 @@".data : List Char).head? ≠ some '+'
    ∧ FormatDiff.formatLine 5 ("@@ -1 +1 @@".data) = "@@ -1 +1 @@".data :=
  ⟨by decide, by decide, claim_C4 5 ("@@ -1 +1 @@".data) (by decide) (by decide)⟩

theorem claim_C4_counterexample :
    FormatDiff.formatDiffBlock ("--- a/f".data) 2 ≠ "--- a/f".data := by decide

/-- Claim C5: on the concrete document with a two-space-indented diff
fence and the body lines minus-space-old and plus-space-new, the
character-based formatter inserts the two-space indent before each
marker and removes the single space after it, producing minus-old and
plus-new, not the claimed unchanged spacing after the marker. -/
theorem claim_C5 :
    FormatDiff.formatMarkdown ("  ```diff\n- old\n+ new\n  ```\n".data)
      = ("  ```diff\n  -old\n  +new\n  ```\n").data :=
  FormatDiff.c5_eval

theorem claim_C5_counterexample :
    FormatDiff.formatMarkdown ("  ```diff\n- old\n+ new\n  ```\n".data)
      ≠ ("  ```diff\n  - old\n  + new\n  ```\n").data := by
  rw [FormatDiff.c5_eval]
  decide

/-- Claim C6: a fence line with trailing characters after the word diff
opens a block under the character-based scanner, which skips the
trailing characters; but the line-based scanner requires the line to
end exactly after the word diff and rejects any trailing characters. -/
theorem claim_C6 :
    (∀ (md o junk : List Char) (i : Nat) (bs : List (List Char)) (s : Nat)
        (nlOpt t : List Char),
      (∀ k, k < o.length → FormatDiff.parseDiffBlockStart md k = none) →
      '\n' ∉ junk →
      (∀ b ∈ bs, '\n' ∉ b ∧ FormatDiff.lineClose b = false) →
      (nlOpt = ['\n'] ∨ (nlOpt = [] ∧ t = [])) →
      md = o ++ (List.replicate i ' ' ++ "```diff".data ++ junk ++ ['\n'])
        ++ rawLines bs ++ (List.replicate s ' ' ++ "```".data ++ nlOpt) ++ t →
      (FormatDiff.parse md 0).head?
        = some ({ fullStartPos := o.length,
                  fullEndPos := o.length + (i + 7 + junk.length + 1)
                    + (rawLines bs).length + (s + 3 + nlOpt.length),
                  contentStartPos := o.length + (i + 7 + junk.length + 1),
                  contentEndPos := o.length + (i + 7 + junk.length + 1)
                    + (rawLines bs).length,
                  indentLevel := i } : FormatDiff.Block))
    ∧ (∀ (a : Nat) (junk : List Char), junk ≠ [] →
        FormatDiffB.matchOpen (List.replicate a ' ' ++ "```diff".data ++ junk)
          = none) := by
  constructor
  · intro md o junk i bs s nlOpt t ho hj hbs hnl hd
    have hd0 : md.drop 0 = o ++ (List.replicate i ' ' ++ "```diff".data
        ++ junk ++ ['\n'])
        ++ rawLines bs ++ (List.replicate s ' ' ++ "```".data ++ nlOpt) ++ t := by
      rw [List.drop_zero]
      exact hd
    have ho0 : ∀ k, k < o.length → FormatDiff.parseDiffBlockStart md (0 + k) = none := by
      intro k hk
      rw [Nat.zero_add]
      exact ho k hk
    have h := FormatDiff.parse_block ho0 hj hbs hnl hd0
    simp only [Nat.zero_add] at h
    rw [h]
    rfl
  · intro a junk hj
    exact FormatDiffB.matchOpen_trailing a hj

theorem claim_C6_witness :
    ('\n' ∉ " xx".data)
    ∧ (FormatDiff.parse ("```diff xx\n- a\n```\n".data) 0).head?
        = some ({ fullStartPos := 0, fullEndPos := 19, contentStartPos := 11,
                  contentEndPos := 15, indentLevel := 0 } : FormatDiff.Block)
    ∧ FormatDiffB.matchOpen
        (List.replicate 0 ' ' ++ "```diff".data ++ " xx".data) = none := by
  refine ⟨by decide, ?_, claim_C6.2 0 (" xx".data) (by decide)⟩
  exact claim_C6.1 ("```diff xx\n- a\n```\n".data) [] (" xx".data) 0
    ["- a".data] 0 ['\n'] []
    (fun k hk => absurd hk (by simp)) (by decide) (by decide) (Or.inl rfl)
    (by decide)

theorem claim_C6_counterexample :
    FormatDiffB.findDiffBlocks ("```diff xx\n- a\n```\n".data) = [] := by decide

/-- Claim C7: neither formatter validates the indent level; there is no
rejection of large values, and the changed-line formatter emits exactly
the requested number of spaces for every indent level, 5000 included. -/
theorem claim_C7 (n : Nat) (rest : List Char) (h : '\n' ∉ rest) :
    FormatDiff.formatDiffBlock ('-' :: rest) n
      = List.replicate n ' '
        ++ '-' :: rest.drop (min n (FormatDiff.spacesRun rest)) :=
  FormatDiff.formatDiffBlock_single_marker n h

theorem claim_C7_witness :
    ('\n' ∉ "x".data)
    ∧ FormatDiff.formatDiffBlock ('-' :: "x".data) 5000
        = List.replicate 5000 ' '
          ++ '-' :: ("x".data).drop (min 5000 (FormatDiff.spacesRun ("x".data))) :=
  ⟨by decide, claim_C7 5000 ("x".data) (by decide)⟩

theorem claim_C7_counterexample :
    FormatDiff.formatDiffBlock ('-' :: "x".data) 5000
      = List.replicate 5000 ' ' ++ '-' :: "x".data := by
  rw [FormatDiff.formatDiffBlock_single_marker 5000 (by decide)]
  have h : ("x".data).drop (min 5000 (FormatDiff.spacesRun ("x".data)))
      = "x".data := by decide
  rw [h]

/-- Claim C8: under both implementations every document splits into
segments such that plain-text segments and the fence parts of block
segments appear byte-for-byte (line-for-line) unchanged in the output,
and only block bodies are rewritten. -/
theorem claim_C8 (md : List Char) :
    (∃ segs : List FormatDiff.SegA,
      (segs.map FormatDiff.SegA.src).flatten = md ∧
      (segs.map FormatDiff.SegA.out).flatten = FormatDiff.formatMarkdown md) ∧
    (∃ segs : List FormatDiffB.SegB,
      (segs.map FormatDiffB.SegB.srcLines).flatten = splitNl md ∧
      FormatDiffB.lineFormat (splitNl md)
        = (segs.map FormatDiffB.SegB.outLines).flatten ∧
      FormatDiffB.formatMarkdown md
        = joinNl ((segs.map FormatDiffB.SegB.outLines).flatten)) ∧
    (∀ (fo : List Char) (b : List (List Char)) (fc : List Char) (ind : Nat),
      FormatDiffB.SegB.outLines (FormatDiffB.SegB.blk fo b fc ind)
        = fo :: b.map (FormatDiffB.padLine
            (ind - FormatDiffB.calculateMinCodeIndent (fo :: b ++ [fc]))) ++ [fc]) := by
  refine ⟨FormatDiff.formatMarkdownA_segments md, ?_, ?_⟩
  · obtain ⟨segs, h1, h2, _⟩ := FormatDiffB.lineFormat_segments
      (splitNl md).length (splitNl md) le_rfl
    refine ⟨segs, h1, h2, ?_⟩
    rw [FormatDiffB.formatMarkdown_eq_lineFormat, h2]
  · intro fo b fc ind
    show FormatDiffB.formatDiffBlock (fo :: b ++ [fc]) ind = _
    exact FormatDiffB.formatDiffBlock_padLine fo fc b ind

/-- Claim C9: an opening diff fence with no matching closing fence
before document end emits no block, in any document: the character
parser returns an empty block list from any position where the fence
opens but the end scan finds nothing; the line scanner emits nothing
for a fence line whose following lines contain no closing fence, and
every block it does emit ends with a closing-fence line.  A document in
which a parser finds zero blocks is returned unchanged by that
implementation.  A document containing an unterminated fence may still
be rewritten at its complete blocks. -/
theorem claim_C9 :
    (∀ (md : List Char) (pos i a : Nat),
      FormatDiff.parseDiffBlockStart md pos = some (i, a) →
      FormatDiff.findEnd md a = none →
      FormatDiff.parse md pos = [])
    ∧ (∀ (l : List Char) (ls : List (List Char)) (j ind : Nat),
      FormatDiffB.matchOpen l = some ind →
      (∀ x ∈ ls, FormatDiffB.matchClose x = false) →
      FormatDiffB.findAux (l :: ls) j none = [])
    ∧ (∀ (ls : List (List Char)) (j : Nat)
        (st : Option (Nat × Nat × List (List Char)))
        (blk : FormatDiffB.DiffBlock), blk ∈ FormatDiffB.findAux ls j st →
      ∃ last, blk.lines.getLast? = some last
        ∧ FormatDiffB.matchClose last = true)
    ∧ (∀ md : List Char,
      (FormatDiff.parse md 0 = [] → FormatDiff.formatMarkdown md = md)
      ∧ (FormatDiffB.findDiffBlocks md = [] →
          FormatDiffB.formatMarkdown md = md)) := by
  refine ⟨?_, ?_, ?_, ?_⟩
  · intro md pos i a hs he
    exact FormatDiff.parse_unterminated hs he
  · intro l ls j ind hm hnc
    exact FormatDiffB.findAux_open_noclose hm hnc j
  · intro ls j st blk hmem
    exact FormatDiffB.findAux_emitted_closed ls j st blk hmem
  · intro md
    exact ⟨fun h => FormatDiff.formatMarkdown_noblocks h,
      fun h => FormatDiffB.formatMarkdownB_of_noblocks h⟩

theorem claim_C9_witness :
    FormatDiff.parseDiffBlockStart ("```diff\nx".data) 0 = some (0, 8)
    ∧ FormatDiff.findEnd ("```diff\nx".data) 8 = none
    ∧ FormatDiff.parse ("```diff\nx".data) 0 = []
    ∧ FormatDiffB.matchOpen ("```diff".data) = some 0
    ∧ (∀ x ∈ [("x".data : List Char)], FormatDiffB.matchClose x = false)
    ∧ FormatDiffB.findAux ["```diff".data, "x".data] 0 none = []
    ∧ FormatDiff.parse ("hello".data) 0 = []
    ∧ FormatDiff.formatMarkdown ("hello".data) = "hello".data
    ∧ FormatDiffB.findDiffBlocks ("a\n```\nb".data) = []
    ∧ FormatDiffB.formatMarkdown ("a\n```\nb".data) = "a\n```\nb".data := by
  have hp : FormatDiff.parse ("hello".data) 0 = [] :=
    FormatDiff.parse_nil_of_noclose (by decide)
  refine ⟨by decide, FormatDiff.c9_findEnd_eval, ?_, by decide, by decide, ?_,
    hp, ?_, by decide, ?_⟩
  · exact claim_C9.1 ("```diff\nx".data) 0 0 8 (by decide)
      FormatDiff.c9_findEnd_eval
  · exact claim_C9.2.1 ("```diff".data) ["x".data] 0 0 (by decide) (by decide)
  · exact (claim_C9.2.2.2 ("hello".data)).1 hp
  · exact (claim_C9.2.2.2 ("a\n```\nb".data)).2 (by decide)

theorem claim_C9_counterexample :
    FormatDiffB.formatMarkdown ("  ```diff\n- a\n  ```\n```diff\nx".data)
      ≠ ("  ```diff\n- a\n  ```\n```diff\nx".data) := by decide

/-- Claim C10: both implementations preserve the number of newline
characters of the document. -/
theorem claim_C10 (md : List Char) :
    (FormatDiff.formatMarkdown md).count '\n' = md.count '\n'
    ∧ (FormatDiffB.formatMarkdown md).count '\n' = md.count '\n' :=
  ⟨FormatDiff.formatMarkdownA_countNl md, FormatDiffB.formatMarkdownB_countNl md⟩
